import Mathlib

/-!
Verification of the ResumeAI deterministic analysis pipeline.

This file gives a shallow embedding of the repository's deterministic
resume-analysis logic and proves the stated properties about it.

Strings are modelled as `List Char`; JavaScript numbers live in `ℚ`, with
`Math.round x = ⌊x + 1/2⌋` applied to the exact value of its argument (as
the ECMAScript specification defines it).  For the final ATS score the
exact-rational computation agrees with double-precision arithmetic on
every reachable input, so it is used directly; the displayed sub-score
rescaling, where exact arithmetic would diverge from the program at
rounding ties, is modelled with explicit IEEE-754 double rounding
(`roundDouble`: round to nearest, ties to even).
`String.prototype.toLowerCase` / `toUpperCase` are modelled at ASCII level
by `Char.toLower` / `Char.toUpper` (the fixed keyword vocabularies are all
ASCII, so matching behaviour is unaffected).

Embedded code:
* the dynamic heuristic scorer of `analyzeResumeHandler`
  (`src/unnamed/part_004`, lines 324-405);
* the input validation of the OpenAI-backed handler
  (`src/unnamed/part_004`, lines 57-80) and of the dynamic heuristic
  handler (`src/unnamed/part_004`, lines 301-309);
* the text-normalization pipeline, modelled from the spec (its Python
  source is not part of the repository snapshot; only documentation is).
-/

namespace ResumeAI

/-! ## Basic character/string helpers (ASCII model of JS string ops) -/

/-- Lines of text are lists of characters. -/
abbrev Chars := List Char

/-- Lower-case every character (model of `String.prototype.toLowerCase`). -/
def lowerLine (l : Chars) : Chars := l.map Char.toLower

/-- Drop leading whitespace. -/
def trimStart (l : Chars) : Chars := l.dropWhile Char.isWhitespace

/-- Drop trailing whitespace. -/
def trimEnd (l : Chars) : Chars := ((l.reverse.dropWhile Char.isWhitespace)).reverse

/-- Model of `String.prototype.trim`: drop leading and trailing whitespace. -/
def jsTrim (l : Chars) : Chars := trimEnd (trimStart l)

/-- Splits a character list into the maximal runs of characters satisfying
`keep`, discarding the separators.  Used both for word splitting and for
`\w+`-style token runs. -/
def splitRuns (keep : Char → Bool) (cs : Chars) : List Chars :=
  (cs.foldr
    (fun c acc =>
      if keep c then
        match acc with
        | [] => [[c]]
        | w :: ws => (c :: w) :: ws
      else [] :: acc)
    [[]]).filter (fun w => !w.isEmpty)

/-- Whitespace-separated words of a line. -/
def wordsOf (cs : Chars) : List Chars := splitRuns (fun c => !c.isWhitespace) cs

/-- JavaScript `\w` character class: ASCII letters, digits and underscore. -/
def isWordChar (c : Char) : Bool := c.isAlphanum || c = '_'

/-- Model of `text.toLowerCase().match(/\b\w{4,}\b/g) || []`: the maximal
runs of word characters of the lower-cased text that are at least 4
characters long, in order, with duplicates kept. -/
def tokenize (cs : Chars) : List Chars :=
  (splitRuns isWordChar (cs.map Char.toLower)).filter (fun w => decide (4 ≤ w.length))

/-- First-occurrence-order deduplication (model of JS
`Array.from(new Set(xs))`, which preserves first insertion order). -/
def dedupFirst : List Chars → List Chars
  | [] => []
  | x :: rest => x :: (dedupFirst rest).filter (fun y => decide (y ≠ x))

/-- Model of `k.charAt(0).toUpperCase() + k.slice(1)`. -/
def capitalize : Chars → Chars
  | [] => []
  | c :: rest => c.toUpper :: rest

/-! ## The dynamic heuristic scorer (`src/unnamed/part_004`, lines 324-405) -/

/-- The fixed list of common tech keywords from the handler. -/
def commonTechKeywords : List Chars :=
  ["JavaScript", "React", "Node.js", "Python", "Java", "SQL", "Git",
   "Cloud", "AWS", "Docker", "Kubernetes", "TypeScript", "HTML", "CSS",
   "Agile", "DevOps", "CI/CD", "API", "REST", "GraphQL", "Machine Learning"
  ].map String.toList

/-- `commonTechKeywords.map(k => k.toLowerCase())`. -/
def commonTechKeywordsLower : List Chars := commonTechKeywords.map lowerLine

/-- `potentialKeywords`: job-description tokens restricted to the keyword
vocabulary, deduplicated preserving first-occurrence order. -/
def potentialKeywords (jobDescription : Chars) : List Chars :=
  dedupFirst ((tokenize jobDescription).filter
    (fun w => decide (w ∈ commonTechKeywordsLower)))

/-- `matchedKeywords`: the potential keywords present in the resume token list. -/
def matchedKeywords (resumeText jobDescription : Chars) : List Chars :=
  (potentialKeywords jobDescription).filter
    (fun kw => decide (kw ∈ tokenize resumeText))

/-- `missingKeywords`: the potential keywords absent from the resume token list. -/
def missingKeywords (resumeText jobDescription : Chars) : List Chars :=
  (potentialKeywords jobDescription).filter
    (fun kw => decide (kw ∉ tokenize resumeText))

/-- Header synonyms for the experience section. -/
def experienceSyns : List Chars := ["experience", "work history", "employment"].map String.toList
/-- Header synonyms for the skills section. -/
def skillsSyns : List Chars := ["skills", "technologies", "competencies"].map String.toList
/-- Header synonyms for the education section (declared in the handler,
unused by the section scores). -/
def educationSyns : List Chars := ["education", "academic", "degree"].map String.toList
/-- Header synonyms for the projects section. -/
def projectsSyns : List Chars := ["projects", "portfolio"].map String.toList

/-- `sections.X.some(s => resumeFullText.includes(s))`: substring presence of
any synonym in the lower-cased resume text. -/
def sectionPresent (resumeText : Chars) (syns : List Chars) : Bool :=
  syns.any (fun s => decide (s <:+: lowerLine resumeText))

/-- Base experience section value: 25 if present, else 5. -/
def experienceScore (resumeText : Chars) : ℕ :=
  if sectionPresent resumeText experienceSyns then 25 else 5

/-- Base skills section value: 35 if present, else 10. -/
def skillsScore (resumeText : Chars) : ℕ :=
  if sectionPresent resumeText skillsSyns then 35 else 10

/-- Base projects section value: 18 if present, else 5. -/
def projectsScore (resumeText : Chars) : ℕ :=
  if sectionPresent resumeText projectsSyns then 18 else 5

/-- Role alignment: 10 if more than 5 matched keywords, else 5. -/
def roleAlignmentScore (resumeText jobDescription : Chars) : ℕ :=
  if 5 < (matchedKeywords resumeText jobDescription).length then 10 else 5

/-- `baseSectionScore`: sum of the four base section values. -/
def baseSectionScore (resumeText jobDescription : Chars) : ℕ :=
  experienceScore resumeText + skillsScore resumeText + projectsScore resumeText
    + roleAlignmentScore resumeText jobDescription

/-- `keywordScore`: `(|matched| / |potential|) * 40` when the potential
keyword list is non-empty, else the neutral default 20. -/
def keywordScore (resumeText jobDescription : Chars) : ℚ :=
  if 0 < (potentialKeywords jobDescription).length then
    ((matchedKeywords resumeText jobDescription).length : ℚ)
      / ((potentialKeywords jobDescription).length : ℚ) * 40
  else 20

/-- JavaScript `Math.round` on the (non-negative) values appearing in the
scorer: round half up, applied to the exact value of the argument. -/
def jsRound (q : ℚ) : ℤ := ⌊q + 1 / 2⌋

/-- Floor of the base-2 logarithm of a positive rational, found by
scanning the exponent range [-64, 63]; every number handled by the scorer
lies well inside this range. -/
def floorLog2 (a : ℚ) : ℤ :=
  ((List.range 128).map (fun i => (i : ℤ) - 64)).foldl
    (fun acc e => if (2 : ℚ) ^ e ≤ a then e else acc) (-64)

/-- Rounds a rational to the nearest IEEE-754 double-precision value
(round to nearest, ties to even), for magnitudes in the normal range
covered by `floorLog2`.  Every JavaScript arithmetic operation produces
exactly the `roundDouble` of its exact result. -/
def roundDouble (q : ℚ) : ℚ :=
  if q = 0 then 0
  else
    let a := |q|
    let e := floorLog2 a
    let ulp : ℚ := (2 : ℚ) ^ (e - 52)
    let n : ℤ := ⌊a / ulp⌋
    let r := a - (n : ℚ) * ulp
    let rounded :=
      if 2 * r < ulp then (n : ℚ) * ulp
      else if ulp < 2 * r then ((n + 1 : ℤ) : ℚ) * ulp
      else if n % 2 = 0 then (n : ℚ) * ulp else ((n + 1 : ℤ) : ℚ) * ulp
    if q < 0 then -rounded else rounded

/-- JavaScript double-precision division. -/
def jsDiv (x y : ℚ) : ℚ := roundDouble (x / y)

/-- JavaScript double-precision multiplication. -/
def jsMul (x y : ℚ) : ℚ := roundDouble (x * y)

/-- `finalAtsScore = Math.min(Math.round(keywordScore + baseSectionScore * 0.6), 98)`. -/
def finalAtsScore (resumeText jobDescription : Chars) : ℤ :=
  min (jsRound (keywordScore resumeText jobDescription
    + (baseSectionScore resumeText jobDescription : ℚ) * (6 / 10))) 98

/-- The displayed section score breakdown. -/
structure SectionScores where
  skills : ℤ
  experience : ℤ
  projects : ℤ
  roleAlignment : ℤ
  deriving DecidableEq, Repr

/-- The externally visible analysis result of the dynamic heuristic handler. -/
structure AnalysisResult where
  atsScore : ℤ
  requiredKeywords : List Chars
  matchedKeywords : List Chars
  missingKeywords : List Chars
  weakKeywords : List Chars
  sectionScores : SectionScores
  improvementSuggestions : List Chars
  optimizedBullets : List Chars
  deriving DecidableEq, Repr

/-- Suggestion text fragments from the handler. -/
def sugKeywordsPrefix : Chars :=
  "Increase your score by adding these missing keywords: ".toList

/-- Suggestion shown when the experience section value is below 20. -/
def sugExperienceWeak : Chars :=
  "Your experience section seems weak or missing. Add more professional history.".toList

/-- Suggestion shown when the experience section value is at least 20. -/
def sugExperienceStrong : Chars :=
  "Strengthen your experience with more quantifiable metrics.".toList

/-- Suggestion shown when the projects section value is below 10. -/
def sugProjectsAdd : Chars :=
  "Add a \"Projects\" section to showcase practical applications of your skills.".toList

/-- Suggestion shown when the projects section value is at least 10. -/
def sugProjectsGood : Chars :=
  "Good use of projects to demonstrate competency.".toList

/-- The unconditional contact-information suggestion. -/
def sugContact : Chars :=
  "Ensure your contact information is at the very top for better parsing.".toList

/-- The `improvementSuggestions` array of the handler. -/
def improvementSuggestions (resumeText jobDescription : Chars) : List Chars :=
  [sugKeywordsPrefix
      ++ List.intercalate ", ".toList ((missingKeywords resumeText jobDescription).take 3),
   if experienceScore resumeText < 20 then sugExperienceWeak else sugExperienceStrong,
   if projectsScore resumeText < 10 then sugProjectsAdd else sugProjectsGood,
   sugContact]

/-- The constant `optimizedBullets` array of the handler. -/
def optimizedBullets : List Chars :=
  ["Optimized existing experience bullet to include keywords and metrics",
   "Rewrote summary to better align with the job requirements",
   "Formatted skills section for better ATS readability"].map String.toList

/-- The complete `dynamicResult` object computed by the dynamic heuristic
handler for a given resume text and job description. -/
def dynamicResult (resumeText jobDescription : Chars) : AnalysisResult :=
  { atsScore := finalAtsScore resumeText jobDescription
    requiredKeywords := (potentialKeywords jobDescription).map capitalize
    matchedKeywords := (matchedKeywords resumeText jobDescription).map capitalize
    missingKeywords := (missingKeywords resumeText jobDescription).map capitalize
    weakKeywords := ((missingKeywords resumeText jobDescription).take 2).map capitalize
    sectionScores :=
      { skills := jsRound (jsMul (skillsScore resumeText : ℚ)
          (jsDiv (finalAtsScore resumeText jobDescription : ℚ) 100))
        experience := jsRound (jsMul (experienceScore resumeText : ℚ)
          (jsDiv (finalAtsScore resumeText jobDescription : ℚ) 100))
        projects := jsRound (jsMul (projectsScore resumeText : ℚ)
          (jsDiv (finalAtsScore resumeText jobDescription : ℚ) 100))
        roleAlignment := (roleAlignmentScore resumeText jobDescription : ℤ) }
    improvementSuggestions := improvementSuggestions resumeText jobDescription
    optimizedBullets := optimizedBullets }

/-! ## Input validation (`src/unnamed/part_004`, lines 57-80 and 301-309) -/

/-- Validation errors raised by the two handler versions. -/
inductive ValidationError where
  | resumeMissing
  | resumeTooShort
  | resumeTooLong
  | jdMissing
  | jdTooShort
  | jdTooLong
  | dynResumeInvalid
  | dynJdInvalid
  deriving DecidableEq, Repr

/-- Input validation of the OpenAI-backed `analyzeResumeHandler`
(lines 57-80): trimmed resume length at least 100, raw resume length at
most 50000, trimmed job-description length at least 50, raw length at most
20000, with emptiness checked first (JS falsiness of the empty string). -/
def validateStrict (resumeText jobDescription : Chars) : Option ValidationError :=
  if resumeText.isEmpty then some .resumeMissing
  else if (jsTrim resumeText).length < 100 then some .resumeTooShort
  else if 50000 < resumeText.length then some .resumeTooLong
  else if jobDescription.isEmpty then some .jdMissing
  else if (jsTrim jobDescription).length < 50 then some .jdTooShort
  else if 20000 < jobDescription.length then some .jdTooLong
  else none

/-- Input validation of the dynamic heuristic `analyzeResumeHandler`
(lines 301-309): only rejects an empty or short (trimmed length below 50)
resume and an empty or short (trimmed length below 20) job description;
it imposes no upper bounds. -/
def validateDynamic (resumeText jobDescription : Chars) : Option ValidationError :=
  if resumeText.isEmpty || (jsTrim resumeText).length < 50 then some .dynResumeInvalid
  else if jobDescription.isEmpty || (jsTrim jobDescription).length < 20 then
    some .dynJdInvalid
  else none

/-! ## Helper lemmas about the scorer -/

/-- A map whose function fixes every member is the identity. -/
theorem map_fix {α : Type} {f : α → α} : ∀ {l : List α}, (∀ a ∈ l, f a = a) → l.map f = l
  | [], _ => rfl
  | a :: l, h => by
    simp only [List.map_cons, h a (List.mem_cons_self a l),
      map_fix (fun b hb => h b (List.mem_cons_of_mem a hb))]

/-- Membership in `dedupFirst` is membership in the original list. -/
theorem mem_dedupFirst {a : Chars} : ∀ {l : List Chars}, a ∈ dedupFirst l ↔ a ∈ l
  | [] => Iff.rfl
  | x :: rest => by
    simp only [dedupFirst, List.mem_cons, List.mem_filter, decide_eq_true_eq]
    constructor
    · rintro (rfl | ⟨h, _⟩)
      · exact Or.inl rfl
      · exact Or.inr (mem_dedupFirst.1 h)
    · rintro (rfl | h)
      · exact Or.inl rfl
      · by_cases hx : a = x
        · exact Or.inl hx
        · exact Or.inr ⟨mem_dedupFirst.2 h, hx⟩

/-- `dedupFirst` is a sublist of the original list: the retained occurrences
appear in their original order. -/
theorem dedupFirst_sublist : ∀ l : List Chars, List.Sublist (dedupFirst l) l
  | [] => List.Sublist.refl _
  | x :: rest => by
    simpa [dedupFirst] using
      ((List.filter_sublist (dedupFirst rest)).trans (dedupFirst_sublist rest)).cons₂ x

/-- `dedupFirst` removes all duplicates. -/
theorem dedupFirst_nodup : ∀ l : List Chars, (dedupFirst l).Nodup
  | [] => List.nodup_nil
  | x :: rest => by
    rw [dedupFirst, List.nodup_cons]
    refine ⟨fun hx => ?_, (dedupFirst_nodup rest).filter _⟩
    rcases List.mem_filter.1 hx with ⟨-, hne⟩
    exact (of_decide_eq_true hne) rfl

/-- Index of the first occurrence of `a` in `l`. -/
def firstIdx (l : List Chars) (a : Chars) : ℕ := (l.takeWhile (fun y => decide (y ≠ a))).length

theorem firstIdx_cons_self (a : Chars) (l : List Chars) : firstIdx (a :: l) a = 0 := by
  simp [firstIdx, List.takeWhile]

theorem firstIdx_cons_ne {a x : Chars} (l : List Chars) (h : a ≠ x) :
    firstIdx (x :: l) a = firstIdx l a + 1 := by
  simp [firstIdx, List.takeWhile, Ne.symm h]

/-- `dedupFirst` lists elements in the order of their first occurrences. -/
theorem dedupFirst_pairwise_firstIdx :
    ∀ l : List Chars, (dedupFirst l).Pairwise (fun a b => firstIdx l a < firstIdx l b)
  | [] => List.Pairwise.nil
  | x :: rest => by
    rw [dedupFirst, List.pairwise_cons]
    constructor
    · intro b hb
      rcases List.mem_filter.1 hb with ⟨-, hne⟩
      rw [firstIdx_cons_self, firstIdx_cons_ne rest (of_decide_eq_true hne)]
      exact Nat.succ_pos _
    · have base := (dedupFirst_pairwise_firstIdx rest).sublist
        (List.filter_sublist (p := fun y => decide (y ≠ x)) (dedupFirst rest))
      refine base.imp_of_mem ?_
      intro a b ha hb hlt
      rcases List.mem_filter.1 ha with ⟨-, hanex⟩
      rcases List.mem_filter.1 hb with ⟨-, hbnex⟩
      rw [firstIdx_cons_ne rest (of_decide_eq_true hanex),
        firstIdx_cons_ne rest (of_decide_eq_true hbnex)]
      omega

/-- The raw run-splitting fold, before empty runs are filtered out. -/
def splitRunsFold (keep : Char → Bool) (cs : Chars) : List Chars :=
  cs.foldr
    (fun c acc =>
      if keep c then
        match acc with
        | [] => [[c]]
        | w :: ws => (c :: w) :: ws
      else [] :: acc)
    [[]]

theorem splitRuns_eq_fold (keep : Char → Bool) (cs : Chars) :
    splitRuns keep cs = (splitRunsFold keep cs).filter (fun w => !w.isEmpty) := rfl

theorem splitRunsFold_ne_nil (keep : Char → Bool) : ∀ cs : Chars, splitRunsFold keep cs ≠ []
  | [] => by simp [splitRunsFold]
  | c :: cs => by
    have ih := splitRunsFold_ne_nil keep cs
    simp only [splitRunsFold, List.foldr_cons]
    split
    · cases h : splitRunsFold keep cs with
      | nil => exact absurd h ih
      | cons w ws => simp [splitRunsFold] at h ⊢; rw [h]; simp
    · simp

theorem all_splitRunsFold (keep : Char → Bool) :
    ∀ cs : Chars, ∀ w ∈ splitRunsFold keep cs, w.all keep
  | [], w, hw => by
    simp only [splitRunsFold, List.foldr_nil, List.mem_singleton] at hw
    simp [hw]
  | c :: cs, w, hw => by
    have ih := all_splitRunsFold keep cs
    simp only [splitRunsFold, List.foldr_cons] at hw
    by_cases hk : keep c
    · rw [if_pos hk] at hw
      rcases h : splitRunsFold keep cs with _ | ⟨w0, ws⟩
      · exact absurd h (splitRunsFold_ne_nil keep cs)
      · rw [show (cs.foldr _ [[]] : List Chars) = splitRunsFold keep cs from rfl, h] at hw
        rcases List.mem_cons.1 hw with rfl | hmem
        · have h0 : w0.all keep := ih w0 (h ▸ List.mem_cons_self w0 ws)
          simp [List.all_cons, hk, h0]
        · exact ih w (h ▸ List.mem_cons_of_mem w0 hmem)
    · rw [if_neg hk] at hw
      rcases List.mem_cons.1 hw with rfl | hmem
      · simp
      · exact ih w hmem

/-- Every run produced by `splitRuns` is non-empty and consists of kept
characters only. -/
theorem mem_splitRuns {keep : Char → Bool} {cs : Chars} {w : Chars}
    (hw : w ∈ splitRuns keep cs) : w ≠ [] ∧ w.all keep := by
  rw [splitRuns_eq_fold] at hw
  rcases List.mem_filter.1 hw with ⟨hmem, hne⟩
  refine ⟨fun h => by simp [h] at hne, all_splitRunsFold keep cs w hmem⟩

/-- Every token is a run of at least 4 word characters. -/
theorem mem_tokenize {cs w : Chars} (hw : w ∈ tokenize cs) :
    4 ≤ w.length ∧ w ≠ [] ∧ w.all isWordChar := by
  rcases List.mem_filter.1 hw with ⟨hmem, hlen⟩
  rcases mem_splitRuns hmem with ⟨hne, hall⟩
  exact ⟨of_decide_eq_true hlen, hne, hall⟩

/-- Every potential keyword is both a vocabulary entry and a token of the
job description. -/
theorem mem_potentialKeywords {jd w : Chars} (hw : w ∈ potentialKeywords jd) :
    w ∈ commonTechKeywordsLower ∧ w ∈ tokenize jd := by
  have := mem_dedupFirst.1 hw
  rcases List.mem_filter.1 this with ⟨hmem, hv⟩
  exact ⟨of_decide_eq_true hv, hmem⟩

/-- On the (finite) lower-cased vocabulary, `capitalize` is injective. -/
theorem capitalize_inj_on_vocab :
    ∀ a ∈ commonTechKeywordsLower, ∀ b ∈ commonTechKeywordsLower,
      capitalize a = capitalize b → a = b := by decide

/-- Vocabulary entries that are tokens keep length and word-character purity
after capitalization. -/
theorem capitalize_vocab_props :
    ∀ t ∈ commonTechKeywordsLower,
      (4 ≤ t.length ∧ t.all isWordChar) →
        4 ≤ (capitalize t).length ∧ (capitalize t).all isWordChar := by decide

/-! ## Claim C1: the ATS score formula -/

/-- C1.  For every input pair, the deterministic scorer computes
`keywordScore = (|matched| / |keywords|) * 40` when the extracted keyword
set is non-empty and `20` when it is empty, and the returned `atsScore`
equals `round(keywordScore + baseSectionScore * 0.6)` clamped to at most
98, where `baseSectionScore` is the sum of the experience, skills,
projects and roleAlignment section values. -/
theorem atsScore_eq_clamped_formula (r j : Chars) :
    (dynamicResult r j).atsScore
        = min
            (jsRound
              ((if 0 < (potentialKeywords j).length then
                  ((matchedKeywords r j).length : ℚ)
                    / ((potentialKeywords j).length : ℚ) * 40
                else 20)
                + ((experienceScore r + skillsScore r + projectsScore r
                    + roleAlignmentScore r j : ℕ) : ℚ) * (6 / 10)))
            98
      ∧ (dynamicResult r j).atsScore ≤ 98 :=
  ⟨rfl, min_le_right _ _⟩

/-! ## Claim C3: keyword partition -/

/-- C3.  `matchedKeywords` and `missingKeywords` partition
`requiredKeywords` exactly: every required keyword appears in one of the
two lists, no keyword appears in both, their union is exactly
`requiredKeywords`, and `weakKeywords` consists of the first two entries
of `missingKeywords`. -/
theorem keyword_partition (r j : Chars) :
    (∀ k, k ∈ (dynamicResult r j).requiredKeywords ↔
        (k ∈ (dynamicResult r j).matchedKeywords
          ∨ k ∈ (dynamicResult r j).missingKeywords))
      ∧ (∀ k, ¬(k ∈ (dynamicResult r j).matchedKeywords
          ∧ k ∈ (dynamicResult r j).missingKeywords))
      ∧ (dynamicResult r j).weakKeywords
          = (dynamicResult r j).missingKeywords.take 2 := by
  refine ⟨fun k => ?_, fun k => ?_, ?_⟩
  · show k ∈ (potentialKeywords j).map capitalize ↔
      k ∈ (matchedKeywords r j).map capitalize ∨ k ∈ (missingKeywords r j).map capitalize
    simp only [List.mem_map, matchedKeywords, missingKeywords, List.mem_filter]
    constructor
    · rintro ⟨a, ha, rfl⟩
      by_cases hm : (decide (a ∈ tokenize r)) = true
      · exact Or.inl ⟨a, ⟨ha, hm⟩, rfl⟩
      · refine Or.inr ⟨a, ⟨ha, ?_⟩, rfl⟩
        simp only [decide_eq_true_eq] at hm ⊢
        exact hm
    · rintro (⟨a, ⟨ha, -⟩, rfl⟩ | ⟨a, ⟨ha, -⟩, rfl⟩) <;> exact ⟨a, ha, rfl⟩
  · rintro ⟨hm, hn⟩
    show False
    simp only [AnalysisResult.matchedKeywords, AnalysisResult.missingKeywords,
      dynamicResult] at hm hn
    rcases List.mem_map.1 hm with ⟨a, ha, rfl⟩
    rcases List.mem_map.1 hn with ⟨b, hb, hab⟩
    rcases List.mem_filter.1 ha with ⟨hapot, hatok⟩
    rcases List.mem_filter.1 hb with ⟨hbpot, hbtok⟩
    have hav := (mem_potentialKeywords hapot).1
    have hbv := (mem_potentialKeywords hbpot).1
    have : b = a := capitalize_inj_on_vocab b hbv a hav hab
    subst this
    rw [decide_eq_true_eq] at hatok hbtok
    exact hbtok hatok
  · show ((missingKeywords r j).take 2).map capitalize
      = ((missingKeywords r j).map capitalize).take 2
    exact List.map_take ..

/-- Witness for C3 at a concrete input pair. -/
theorem keyword_partition_witness :
    ("React".toList ∈ (dynamicResult
        "I know react and docker. Skills: many. Experience: lots.".toList
        "We need React, Python and Docker engineers.".toList).requiredKeywords ↔
      ("React".toList ∈ (dynamicResult
          "I know react and docker. Skills: many. Experience: lots.".toList
          "We need React, Python and Docker engineers.".toList).matchedKeywords
        ∨ "React".toList ∈ (dynamicResult
          "I know react and docker. Skills: many. Experience: lots.".toList
          "We need React, Python and Docker engineers.".toList).missingKeywords)) :=
  (keyword_partition
    "I know react and docker. Skills: many. Experience: lots.".toList
    "We need React, Python and Docker engineers.".toList).1 "React".toList

/-! ## Claim C5: base section values -/

/-- C5.  Each base section value depends only on whether the lower-cased
resume text contains one of the fixed header synonyms for that section
(experience 25/5, skills 35/10, projects 18/5), and roleAlignment is 10
exactly when more than five keywords matched, else 5. -/
theorem base_section_values (r j : Chars) :
    ((∃ s ∈ experienceSyns, s <:+: lowerLine r) → experienceScore r = 25)
      ∧ (¬(∃ s ∈ experienceSyns, s <:+: lowerLine r) → experienceScore r = 5)
      ∧ ((∃ s ∈ skillsSyns, s <:+: lowerLine r) → skillsScore r = 35)
      ∧ (¬(∃ s ∈ skillsSyns, s <:+: lowerLine r) → skillsScore r = 10)
      ∧ ((∃ s ∈ projectsSyns, s <:+: lowerLine r) → projectsScore r = 18)
      ∧ (¬(∃ s ∈ projectsSyns, s <:+: lowerLine r) → projectsScore r = 5)
      ∧ (5 < (matchedKeywords r j).length → roleAlignmentScore r j = 10)
      ∧ (¬(5 < (matchedKeywords r j).length) → roleAlignmentScore r j = 5) := by
  have hpres : ∀ syns, sectionPresent r syns = true ↔ ∃ s ∈ syns, s <:+: lowerLine r := by
    intro syns
    simp [sectionPresent, List.any_eq_true]
  refine ⟨?_, ?_, ?_, ?_, ?_, ?_, ?_, ?_⟩ <;> intro h
  · rw [experienceScore, if_pos ((hpres _).2 h)]
  · rw [experienceScore, if_neg (fun hc => h ((hpres _).1 hc))]
  · rw [skillsScore, if_pos ((hpres _).2 h)]
  · rw [skillsScore, if_neg (fun hc => h ((hpres _).1 hc))]
  · rw [projectsScore, if_pos ((hpres _).2 h)]
  · rw [projectsScore, if_neg (fun hc => h ((hpres _).1 hc))]
  · rw [roleAlignmentScore, if_pos h]
  · rw [roleAlignmentScore, if_neg h]

/-- Witness for C5 at a concrete resume. -/
theorem base_section_values_witness :
    (∃ s ∈ experienceSyns, s <:+: lowerLine "My Experience is long.".toList)
      ∧ experienceScore "My Experience is long.".toList = 25 :=
  ⟨by decide, (base_section_values "My Experience is long.".toList []).1 (by decide)⟩

/-! ## Claim C6: keyword extraction -/

/-- C6.  Keyword extraction retains only lower-cased tokens of at least 4
word characters drawn from the fixed vocabulary, deduplicates them, and
preserves first-occurrence order from the job description: the result is
a duplicate-free sublist of the vocabulary-filtered token stream with the
same members, listed in order of first occurrence. -/
theorem keyword_extraction (j : Chars) :
    (∀ k ∈ potentialKeywords j,
        4 ≤ k.length ∧ k.all isWordChar ∧ lowerLine k = k ∧ k ∈ commonTechKeywordsLower)
      ∧ (potentialKeywords j).Nodup
      ∧ List.Sublist (potentialKeywords j)
          ((tokenize j).filter (fun w => decide (w ∈ commonTechKeywordsLower)))
      ∧ (∀ k, k ∈ potentialKeywords j ↔
          k ∈ (tokenize j).filter (fun w => decide (w ∈ commonTechKeywordsLower)))
      ∧ (potentialKeywords j).Pairwise (fun a b =>
          firstIdx ((tokenize j).filter (fun w => decide (w ∈ commonTechKeywordsLower))) a
            < firstIdx ((tokenize j).filter (fun w => decide (w ∈ commonTechKeywordsLower))) b) := by
  have hlower : ∀ v ∈ commonTechKeywordsLower, lowerLine v = v := by decide
  refine ⟨fun k hk => ?_, dedupFirst_nodup _, dedupFirst_sublist _,
    fun k => mem_dedupFirst, dedupFirst_pairwise_firstIdx _⟩
  rcases mem_potentialKeywords hk with ⟨hv, htok⟩
  rcases mem_tokenize htok with ⟨hlen, -, hall⟩
  exact ⟨hlen, hall, hlower k hv, hv⟩

/-- Witness for C6 at a concrete job description. -/
theorem keyword_extraction_witness :
    "react".toList ∈ potentialKeywords "We want React and REACT and Python.".toList
      ∧ 4 ≤ "react".toList.length ∧ "react".toList.all isWordChar
        ∧ lowerLine "react".toList = "react".toList
        ∧ "react".toList ∈ commonTechKeywordsLower :=
  ⟨by decide,
    (keyword_extraction "We want React and REACT and Python.".toList).1
      "react".toList (by decide)⟩

/-! ## Claim C7: displayed sub-scores (corrected) -/

section

attribute [local semireducible] Rat.add Rat.sub Rat.mul Rat.inv Rat.ofScientific

set_option maxRecDepth 100000

/-- C7 counterexample.  The claim that each displayed sub-score equals its
base value multiplied by `atsScore / 100` and rounded fails under exact
rational rounding: at this input the experience base value is 25 and the
ATS score is 58, the program computes
`Math.round(25 * (58 / 100)) = Math.round(14.499999999999998) = 14`
in double-precision arithmetic, while exact rounding of
`25 * (58 / 100) = 14.5` gives 15. -/
theorem displayed_scores_counterexample :
    experienceScore
        "Experience Skills Projects react plus other ordinary filler words here".toList = 25
      ∧ (dynamicResult
          "Experience Skills Projects react plus other ordinary filler words here".toList
          "We need react python docker agile graphql engineers".toList).atsScore = 58
      ∧ (dynamicResult
          "Experience Skills Projects react plus other ordinary filler words here".toList
          "We need react python docker agile graphql engineers".toList).sectionScores.experience
        = 14
      ∧ jsRound ((25 : ℚ) * ((58 : ℚ) / 100)) = 15 := by decide

end

/-- C7 (amended).  The displayed skills, experience and projects
sub-scores equal their base section values multiplied by `atsScore / 100`
and rounded, with the division, the multiplication and the intermediate
results computed in IEEE-754 double-precision arithmetic as JavaScript
does (differing by one from exact-rational rounding at exact ties), while
the displayed roleAlignment equals its base value unscaled. -/
theorem displayed_section_scores (r j : Chars) :
    (dynamicResult r j).sectionScores.skills
        = jsRound (jsMul (skillsScore r : ℚ) (jsDiv ((dynamicResult r j).atsScore : ℚ) 100))
      ∧ (dynamicResult r j).sectionScores.experience
        = jsRound (jsMul (experienceScore r : ℚ)
            (jsDiv ((dynamicResult r j).atsScore : ℚ) 100))
      ∧ (dynamicResult r j).sectionScores.projects
        = jsRound (jsMul (projectsScore r : ℚ)
            (jsDiv ((dynamicResult r j).atsScore : ℚ) 100))
      ∧ (dynamicResult r j).sectionScores.roleAlignment
        = (roleAlignmentScore r j : ℤ) :=
  ⟨rfl, rfl, rfl, rfl⟩

/-! ## Claim C8: rule-based improvement suggestions -/

/-- C8.  The improvement suggestions are rule-based: the suggestion naming
the first three missing keywords is present whenever missing keywords
exist, the strengthen-experience suggestion is present when the experience
value is below 20, the add-projects suggestion is present when the
projects section is absent, and the contact-information suggestion is
always present. -/
theorem suggestions_rule_based (r j : Chars) :
    (missingKeywords r j ≠ [] →
        sugKeywordsPrefix ++ List.intercalate ", ".toList ((missingKeywords r j).take 3)
          ∈ (dynamicResult r j).improvementSuggestions)
      ∧ (experienceScore r < 20 →
          sugExperienceWeak ∈ (dynamicResult r j).improvementSuggestions)
      ∧ (sectionPresent r projectsSyns = false →
          sugProjectsAdd ∈ (dynamicResult r j).improvementSuggestions)
      ∧ sugContact ∈ (dynamicResult r j).improvementSuggestions := by
  refine ⟨fun _ => ?_, fun hexp => ?_, fun hproj => ?_, ?_⟩
  · exact List.mem_cons_self _ _
  · show sugExperienceWeak ∈ improvementSuggestions r j
    simp only [improvementSuggestions, if_pos hexp]
    simp
  · show sugProjectsAdd ∈ improvementSuggestions r j
    have h5 : projectsScore r = 5 := by simp [projectsScore, hproj]
    simp only [improvementSuggestions, h5]
    simp
  · show sugContact ∈ improvementSuggestions r j
    simp [improvementSuggestions]

/-- Witness for C8 at a concrete input pair. -/
theorem suggestions_rule_based_witness :
    missingKeywords "short resume text here".toList "We require Python and Docker.".toList ≠ []
      ∧ sugKeywordsPrefix ++ List.intercalate ", ".toList
          ((missingKeywords "short resume text here".toList
            "We require Python and Docker.".toList).take 3)
        ∈ (dynamicResult "short resume text here".toList
            "We require Python and Docker.".toList).improvementSuggestions :=
  ⟨by decide,
    (suggestions_rule_based "short resume text here".toList
      "We require Python and Docker.".toList).1 (by decide)⟩

/-! ## Claim C9: determinism -/

/-- C9.  The scoring computation is a pure function of its two inputs:
identical inputs yield identical complete results. -/
theorem scorer_deterministic (r1 j1 r2 j2 : Chars) (hr : r1 = r2) (hj : j1 = j2) :
    dynamicResult r1 j1 = dynamicResult r2 j2 := by
  subst hr; subst hj; rfl

/-- Witness for C9 at a concrete input pair. -/
theorem scorer_deterministic_witness :
    dynamicResult "a resume".toList "a job".toList
      = dynamicResult "a resume".toList "a job".toList :=
  scorer_deterministic "a resume".toList "a job".toList
    "a resume".toList "a job".toList rfl rfl

/-! ## Claim C10: keyword shape -/

/-- C10.  Every keyword the result can list (required, matched or missing)
is a single token of at least 4 contiguous word characters; in particular
vocabulary entries shorter than 4 characters or containing spaces, dots
or slashes can never appear. -/
theorem keywords_are_word_tokens (r j : Chars) :
    ∀ k, (k ∈ (dynamicResult r j).requiredKeywords
        ∨ k ∈ (dynamicResult r j).matchedKeywords
        ∨ k ∈ (dynamicResult r j).missingKeywords) →
      4 ≤ k.length ∧ k.all isWordChar := by
  intro k hk
  have hsrc : ∃ a ∈ potentialKeywords j, capitalize a = k := by
    rcases hk with hk | hk | hk
    · rcases List.mem_map.1 hk with ⟨a, ha, rfl⟩
      exact ⟨a, ha, rfl⟩
    · rcases List.mem_map.1 hk with ⟨a, ha, rfl⟩
      exact ⟨a, (List.mem_filter.1 ha).1, rfl⟩
    · rcases List.mem_map.1 hk with ⟨a, ha, rfl⟩
      exact ⟨a, (List.mem_filter.1 ha).1, rfl⟩
  rcases hsrc with ⟨a, ha, rfl⟩
  rcases mem_potentialKeywords ha with ⟨hv, htok⟩
  rcases mem_tokenize htok with ⟨hlen, -, hall⟩
  exact capitalize_vocab_props a hv ⟨hlen, hall⟩

/-- Witness for C10 at a concrete input pair. -/
theorem keywords_are_word_tokens_witness :
    ("Python".toList ∈ (dynamicResult "a resume".toList
        "Python or react or CSS or Node.js please".toList).requiredKeywords
      ∨ "Python".toList ∈ (dynamicResult "a resume".toList
          "Python or react or CSS or Node.js please".toList).matchedKeywords
      ∨ "Python".toList ∈ (dynamicResult "a resume".toList
          "Python or react or CSS or Node.js please".toList).missingKeywords)
    ∧ 4 ≤ "Python".toList.length ∧ "Python".toList.all isWordChar :=
  ⟨by decide,
    keywords_are_word_tokens "a resume".toList
      "Python or react or CSS or Node.js please".toList "Python".toList (by decide)⟩

/-! ## Claim C4: input validation (corrected) -/

/-- C4 counterexample.  The dynamic heuristic handler, the one that runs
the deterministic analysis pipeline, accepts a 99-character resume text:
its validation returns no error, contradicting the claim that a resume of
99 characters is rejected before any analysis work. -/
theorem validation_c4_counterexample :
    (List.replicate 99 'a' : Chars).length = 99
      ∧ validateDynamic (List.replicate 99 'a') (List.replicate 25 'b') = none := by
  constructor
  · simp
  · rfl

/-- C4 amended.  The OpenAI-backed handler enforces the claimed bounds
(trimmed resume length at least 100 and raw length at most 50000, trimmed
job-description length at least 50 and raw length at most 20000), while
the dynamic heuristic handler only rejects resumes with trimmed length
below 50 and job descriptions with trimmed length below 20 and imposes no
upper bounds. -/
theorem validation_characterization (r j : Chars) :
    (validateStrict r j = none ↔
        (r ≠ [] ∧ 100 ≤ (jsTrim r).length ∧ r.length ≤ 50000
          ∧ j ≠ [] ∧ 50 ≤ (jsTrim j).length ∧ j.length ≤ 20000))
      ∧ (validateDynamic r j = none ↔
        (r ≠ [] ∧ 50 ≤ (jsTrim r).length
          ∧ j ≠ [] ∧ 20 ≤ (jsTrim j).length)) := by
  constructor
  · unfold validateStrict
    split_ifs with h1 h2 h3 h4 h5 h6
    · refine ⟨fun h => absurd h (by simp), fun hh => absurd hh ?_⟩
      rw [List.isEmpty_eq_true] at h1
      rintro ⟨hr, -⟩
      exact hr h1
    · refine ⟨fun h => absurd h (by simp), fun hh => absurd hh ?_⟩
      rintro ⟨-, hlen, -⟩
      omega
    · refine ⟨fun h => absurd h (by simp), fun hh => absurd hh ?_⟩
      rintro ⟨-, -, hlen, -⟩
      omega
    · refine ⟨fun h => absurd h (by simp), fun hh => absurd hh ?_⟩
      rw [List.isEmpty_eq_true] at h4
      rintro ⟨-, -, -, hj, -⟩
      exact hj h4
    · refine ⟨fun h => absurd h (by simp), fun hh => absurd hh ?_⟩
      rintro ⟨-, -, -, -, hlen, -⟩
      omega
    · refine ⟨fun h => absurd h (by simp), fun hh => absurd hh ?_⟩
      rintro ⟨-, -, -, -, -, hlen⟩
      omega
    · simp only [Bool.not_eq_true, List.isEmpty_eq_false] at h1 h4
      exact ⟨fun _ => ⟨h1, by omega, by omega, h4, by omega, by omega⟩, fun _ => rfl⟩
  · unfold validateDynamic
    split_ifs with h1 h2
    · refine ⟨fun h => absurd h (by simp), fun hh => absurd hh ?_⟩
      simp only [Bool.or_eq_true, List.isEmpty_eq_true, decide_eq_true_eq] at h1
      rintro ⟨hr, hlen, -, -⟩
      rcases h1 with h | h
      · exact hr h
      · omega
    · refine ⟨fun h => absurd h (by simp), fun hh => absurd hh ?_⟩
      simp only [Bool.or_eq_true, List.isEmpty_eq_true, decide_eq_true_eq] at h2
      rintro ⟨-, -, hj, hlen⟩
      rcases h2 with h | h
      · exact hj h
      · omega
    · simp only [Bool.or_eq_true, List.isEmpty_eq_true, decide_eq_true_eq, not_or] at h1 h2
      exact ⟨fun _ => ⟨h1.1, by omega, h2.1, by omega⟩, fun _ => rfl⟩

/-! ## The text normalizer (modelled from the spec, section 4.2)

The extractor/normalizer source (`text_extractor.py`) is not part of the
repository snapshot; only its documentation is.  The five-step pipeline
below is modelled from the spec: strip boilerplate lines, remove
page-number artifacts, normalize bullet markers, emphasize section
headings, collapse whitespace. -/

/-- Split a character stream into lines at newline characters. -/
def linesOf : Chars → List Chars
  | [] => [[]]
  | c :: cs =>
    if c = '\n' then [] :: linesOf cs
    else
      match linesOf cs with
      | [] => [[c]]
      | l :: ls => (c :: l) :: ls

/-- Join lines with newline separators. -/
def unlinesOf : List Chars → Chars
  | [] => []
  | [l] => l
  | l :: rest => l ++ '\n' :: unlinesOf rest

/-- Modelled from the spec: the fixed vocabulary of boilerplate
(confidentiality-notice) lines removed by step 1. -/
def boilerplateVocab : List Chars :=
  ["confidential", "private and confidential", "do not distribute"].map String.toList

/-- A line is boilerplate when its trimmed, lower-cased form is in the
fixed boilerplate vocabulary. -/
def isBoilerplate (l : Chars) : Bool := decide (lowerLine (jsTrim l) ∈ boilerplateVocab)

/-- Step 1: strip recognized boilerplate lines. -/
def stripBoilerplate (ls : List Chars) : List Chars := ls.filter (fun l => !isBoilerplate l)

/-- A non-empty all-digit word. -/
def isNumericWord (w : Chars) : Bool := !w.isEmpty && w.all Char.isDigit

/-- The word `page`. -/
def pageWord : Chars := "page".toList

/-- The word `of`. -/
def ofWord : Chars := "of".toList

/-- A line matching `Page X of Y` with numeric `X`, `Y` (case-insensitive,
whole trimmed line). -/
def isPageXofY (l : Chars) : Bool :=
  match wordsOf (lowerLine (jsTrim l)) with
  | [p, x, o, y] =>
    decide (p = pageWord) && isNumericWord x && decide (o = ofWord) && isNumericWord y
  | _ => false

/-- An isolated standalone numeric line. -/
def isStandaloneNumber (l : Chars) : Bool := isNumericWord (jsTrim l)

/-- Step 2: remove page-number artifact lines. -/
def removePageArtifacts (ls : List Chars) : List Chars :=
  ls.filter (fun l => !(isPageXofY l || isStandaloneNumber l))

/-- The accepted bullet glyph set of step 3. -/
def bulletGlyphs : Chars := ['•', '●', '○', '■', '□', '▪', '▫', '–', '-', '*', '→', '»']

/-- Step 3 on one line: a line-leading bullet glyph is replaced by the
canonical marker with exactly one space before the bullet text; other
lines (including mid-sentence hyphens) are untouched. -/
def normalizeBulletLine (l : Chars) : Chars :=
  match jsTrim l with
  | [] => l
  | c :: rest =>
    if c ∈ bulletGlyphs then
      if (jsTrim rest).isEmpty then ['•'] else '•' :: ' ' :: jsTrim rest
    else l

/-- Step 3: normalize bullet markers on every line. -/
def normalizeBullets (ls : List Chars) : List Chars := ls.map normalizeBulletLine

/-- Modelled from the spec: the fixed vocabulary of section-heading names
of step 4, paired with their emphasized (upper-cased) forms. -/
def headingPairs : List (Chars × Chars) :=
  [("summary", "SUMMARY"), ("experience", "EXPERIENCE"), ("education", "EDUCATION"),
   ("skills", "SKILLS"), ("projects", "PROJECTS"),
   ("certifications", "CERTIFICATIONS"), ("awards", "AWARDS")].map
    (fun p => (p.1.toList, p.2.toList))

/-- Detects a heading line (whole trimmed line, case-insensitive) and
returns its emphasized form. -/
def findHeading (l : Chars) : Option Chars :=
  (headingPairs.find? (fun p => decide (lowerLine (jsTrim l) = p.1))).map Prod.snd

/-- A line consisting of whitespace only. -/
def isBlankLine (l : Chars) : Bool := (jsTrim l).isEmpty

/-- Step 4 worker: upper-case heading lines and make sure a blank line
separates them from adjacent non-blank content.  The flag records whether
the previously emitted line is blank (true at document start). -/
def emphasizeHeadingsAux : Bool → List Chars → List Chars
  | _, [] => []
  | prevBlank, l :: rest =>
    match findHeading l with
    | some e =>
      (if prevBlank then [] else [[]]) ++
        e :: (match rest with
          | [] => []
          | r :: _ =>
            if isBlankLine r then emphasizeHeadingsAux false rest
            else [] :: emphasizeHeadingsAux true rest)
    | none => l :: emphasizeHeadingsAux (isBlankLine l) rest

/-- Step 4: detect and emphasize section headings. -/
def emphasizeHeadings (ls : List Chars) : List Chars := emphasizeHeadingsAux true ls

/-- Replacement for a run of `n` blank lines: runs of 3 or more collapse
to exactly one blank line, shorter runs are kept. -/
def emitBlanks (n : ℕ) : List Chars := if 3 ≤ n then [[]] else List.replicate n []

/-- Fold computing the blank-run collapse: returns the number of leading
blank lines together with the collapsed remainder after them. -/
def collapseAux : List Chars → ℕ × List Chars
  | [] => (0, [])
  | l :: rest =>
    let p := collapseAux rest
    if l.isEmpty then (p.1 + 1, p.2)
    else (0, l :: (emitBlanks p.1 ++ p.2))

/-- Collapse every run of 3 or more blank lines to exactly one blank line. -/
def collapseBlankRuns (ls : List Chars) : List Chars :=
  emitBlanks (collapseAux ls).1 ++ (collapseAux ls).2

/-- Drop trailing blank lines of the document. -/
def dropTrailingBlanks : List Chars → List Chars
  | [] => []
  | l :: rest =>
    match dropTrailingBlanks rest with
    | [] => if l.isEmpty then [] else [l]
    | r => l :: r

/-- Step 5: trim every line, collapse runs of 3 or more blank lines to
one, and trim leading/trailing blank lines of the whole document. -/
def collapseWhitespace (ls : List Chars) : List Chars :=
  dropTrailingBlanks
    ((collapseBlankRuns (ls.map jsTrim)).dropWhile (fun l => l.isEmpty))

/-- The full five-step normalization pipeline on a line list. -/
def pipelineLines (ls : List Chars) : List Chars :=
  collapseWhitespace
    (emphasizeHeadings (normalizeBullets (removePageArtifacts (stripBoilerplate ls))))

/-- Modelled from the spec: `normalize(text: ExtractedText) -> NormalizedText`
of the Text Normalizer (spec section 4.2), whose `text_extractor.py`
source is not under `src/`; the five steps are applied in the fixed
spec order. -/
def normalize (s : String) : String :=
  String.mk (unlinesOf (pipelineLines (linesOf s.toList)))

/-! ## Trim lemmas -/

theorem dropWhile_idem (p : Char → Bool) :
    ∀ l : Chars, List.dropWhile p (List.dropWhile p l) = List.dropWhile p l
  | [] => rfl
  | c :: l => by
    by_cases h : p c
    · rw [List.dropWhile_cons_of_pos h]
      exact dropWhile_idem p l
    · rw [List.dropWhile_cons_of_neg h, List.dropWhile_cons_of_neg h]

theorem dropWhile_shape (p : Char → Bool) (l : Chars) :
    List.dropWhile p l = [] ∨ ∃ c t, List.dropWhile p l = c :: t ∧ p c = false := by
  induction l with
  | nil => exact Or.inl rfl
  | cons c l ih =>
    by_cases h : p c
    · rw [List.dropWhile_cons_of_pos h]
      exact ih
    · rw [List.dropWhile_cons_of_neg h]
      exact Or.inr ⟨c, l, rfl, Bool.eq_false_iff.2 h⟩

theorem trimStart_fix {l : Chars}
    (h : ∀ c, l.head? = some c → Char.isWhitespace c = false) : trimStart l = l := by
  cases l with
  | nil => rfl
  | cons c t =>
    rw [trimStart, List.dropWhile_cons_of_neg]
    rw [h c rfl]
    simp

theorem trimStart_idem (l : Chars) : trimStart (trimStart l) = trimStart l :=
  dropWhile_idem _ l

theorem trimEnd_fix {l : Chars}
    (h : ∀ c, l.getLast? = some c → Char.isWhitespace c = false) : trimEnd l = l := by
  have h1 : trimStart l.reverse = l.reverse :=
    trimStart_fix (fun c hc => by
      rw [List.head?_reverse] at hc
      exact h c hc)
  rw [trimEnd, show List.dropWhile Char.isWhitespace l.reverse = trimStart l.reverse from rfl,
    h1, List.reverse_reverse]

theorem trimEnd_prefixOf (l : Chars) : trimEnd l <+: l := by
  have h : List.dropWhile Char.isWhitespace l.reverse <:+ l.reverse :=
    List.dropWhile_suffix _
  have h2 : (trimEnd l).reverse <:+ l.reverse := by
    rw [trimEnd, List.reverse_reverse]
    exact h
  exact List.reverse_suffix.1 h2

theorem trimEnd_shape (l : Chars) :
    trimEnd l = [] ∨ ∃ c, (trimEnd l).getLast? = some c ∧ Char.isWhitespace c = false := by
  rcases dropWhile_shape Char.isWhitespace l.reverse with h | ⟨c, t, h, hc⟩
  · left
    rw [trimEnd, h, List.reverse_nil]
  · right
    refine ⟨c, ?_, hc⟩
    rw [trimEnd, h, List.getLast?_reverse]
    rfl

theorem trimEnd_head? (l : Chars) (h : trimEnd l ≠ []) : (trimEnd l).head? = l.head? := by
  rcases trimEnd_prefixOf l with ⟨t, ht⟩
  cases hh : (trimEnd l).head? with
  | none => exact absurd (List.head?_eq_none_iff.1 hh) h
  | some c =>
    have hl : l.head? = some c := by
      rw [← ht, List.head?_append, hh]
      rfl
    rw [hl]

theorem trimEnd_idem (l : Chars) : trimEnd (trimEnd l) = trimEnd l := by
  rcases trimEnd_shape l with h | ⟨c, hc, hw⟩
  · rw [h]
    rfl
  · refine trimEnd_fix (fun d hd => ?_)
    rw [hc] at hd
    rw [← Option.some.inj hd]
    exact hw

theorem jsTrim_head_shape (l : Chars) :
    jsTrim l = [] ∨ ∃ c t, jsTrim l = c :: t ∧ Char.isWhitespace c = false := by
  by_cases he : jsTrim l = []
  · exact Or.inl he
  right
  have hh : (jsTrim l).head? = (trimStart l).head? := trimEnd_head? (trimStart l) he
  rcases hj : jsTrim l with _ | ⟨d, t2⟩
  · exact absurd hj he
  rcases dropWhile_shape Char.isWhitespace l with h | ⟨c, t, h, hc⟩
  · exfalso
    apply he
    rw [jsTrim, show trimStart l = [] from h]
    rfl
  · refine ⟨d, t2, rfl, ?_⟩
    rw [hj, show trimStart l = c :: t from h] at hh
    simp only [List.head?_cons] at hh
    rw [Option.some.inj hh]
    exact hc

theorem jsTrim_last_shape (l : Chars) :
    jsTrim l = [] ∨ ∃ c, (jsTrim l).getLast? = some c ∧ Char.isWhitespace c = false :=
  trimEnd_shape (trimStart l)

theorem jsTrim_idem (l : Chars) : jsTrim (jsTrim l) = jsTrim l := by
  have h1 : trimStart (jsTrim l) = jsTrim l := by
    rcases jsTrim_head_shape l with h | ⟨c, t, h, hc⟩
    · rw [h]
      rfl
    · refine trimStart_fix (fun d hd => ?_)
      rw [h] at hd
      simp only [List.head?_cons] at hd
      rw [← Option.some.inj hd]
      exact hc
  rw [jsTrim, h1]
  exact trimEnd_idem (trimStart l)

theorem jsTrim_fix {l : Chars}
    (h1 : ∀ c, l.head? = some c → Char.isWhitespace c = false)
    (h2 : ∀ c, l.getLast? = some c → Char.isWhitespace c = false) : jsTrim l = l := by
  rw [jsTrim, trimStart_fix h1, trimEnd_fix h2]

theorem jsTrim_cons_ws {c : Char} (hc : Char.isWhitespace c = true) (l : Chars) :
    jsTrim (c :: l) = jsTrim l := by
  rw [jsTrim, jsTrim, trimStart, trimStart, List.dropWhile_cons_of_pos hc]

theorem mem_jsTrim {c : Char} {l : Chars} (h : c ∈ jsTrim l) : c ∈ l := by
  have h1 : c ∈ trimStart l := by
    rcases trimEnd_prefixOf (trimStart l) with ⟨t, ht⟩
    rw [← ht]
    exact List.mem_append_left _ h
  exact (List.dropWhile_sublist (l := l) Char.isWhitespace).subset h1

/-- The canonical bullet line is already trimmed. -/
theorem jsTrim_bullet {r : Chars} (hne : r ≠ []) (htr : jsTrim r = r) :
    jsTrim ('•' :: ' ' :: r) = '•' :: ' ' :: r := by
  refine jsTrim_fix (fun c hc => ?_) (fun c hc => ?_)
  · simp only [List.head?_cons] at hc
    rw [← Option.some.inj hc]
    decide
  · rcases jsTrim_last_shape r with h | ⟨d, hd, hw⟩
    · rw [htr] at h
      exact absurd h hne
    · rw [htr] at hd
      cases r with
      | nil => exact absurd rfl hne
      | cons a t =>
        rw [List.getLast?_cons_cons, List.getLast?_cons_cons, hd] at hc
        rw [← Option.some.inj hc]
        exact hw

/-! ## Lines and unlines -/

theorem linesOf_ne_nil : ∀ cs : Chars, linesOf cs ≠ []
  | [] => by simp [linesOf]
  | c :: cs => by
    rw [linesOf]
    split
    · simp
    · rcases h : linesOf cs with _ | ⟨l, ls⟩
      · exact absurd h (linesOf_ne_nil cs)
      · simp

theorem mem_linesOf_no_newline : ∀ cs : Chars, ∀ g ∈ linesOf cs, '\n' ∉ g
  | [], g, hg => by
    simp only [linesOf, List.mem_singleton] at hg
    simp [hg]
  | c :: cs, g, hg => by
    have ih := mem_linesOf_no_newline cs
    rw [linesOf] at hg
    by_cases hc : c = '\n'
    · rw [if_pos hc] at hg
      rcases List.mem_cons.1 hg with rfl | hmem
      · simp
      · exact ih g hmem
    · rw [if_neg hc] at hg
      rcases h : linesOf cs with _ | ⟨l, ls⟩
      · exact absurd h (linesOf_ne_nil cs)
      · rw [h] at hg
        rcases List.mem_cons.1 hg with rfl | hmem
        · intro hmm
          rcases List.mem_cons.1 hmm with h1 | h1
          · exact hc h1.symm
          · exact ih l (h ▸ List.mem_cons_self l ls) h1
        · exact ih g (h ▸ List.mem_cons_of_mem l hmem)

theorem linesOf_no_newline_single : ∀ g : Chars, '\n' ∉ g → linesOf g = [g]
  | [], _ => rfl
  | c :: g, h => by
    have hc : ¬(c = '\n') := fun hh => h (hh ▸ List.mem_cons_self c g)
    have ih := linesOf_no_newline_single g (fun hh => h (List.mem_cons_of_mem c hh))
    rw [linesOf, if_neg hc, ih]

theorem linesOf_append_newline : ∀ g t : Chars, '\n' ∉ g →
    linesOf (g ++ '\n' :: t) = g :: linesOf t
  | [], t, _ => by
    rw [List.nil_append, linesOf, if_pos rfl]
  | c :: g, t, h => by
    have hc : ¬(c = '\n') := fun hh => h (hh ▸ List.mem_cons_self c g)
    have ih := linesOf_append_newline g t (fun hh => h (List.mem_cons_of_mem c hh))
    rw [List.cons_append, linesOf, if_neg hc, ih]

theorem linesOf_unlinesOf : ∀ Z : List Chars, Z ≠ [] → (∀ g ∈ Z, '\n' ∉ g) →
    linesOf (unlinesOf Z) = Z
  | [], h, _ => absurd rfl h
  | [g], _, hnl => by
    rw [unlinesOf]
    exact linesOf_no_newline_single g (hnl g (List.mem_singleton.2 rfl))
  | g :: g2 :: rest, _, hnl => by
    rw [show unlinesOf (g :: g2 :: rest) = g ++ '\n' :: unlinesOf (g2 :: rest) from rfl]
    rw [linesOf_append_newline g _ (hnl g (List.mem_cons_self _ _))]
    rw [linesOf_unlinesOf (g2 :: rest) (by simp)
      (fun x hx => hnl x (List.mem_cons_of_mem g hx))]


/-! ## Normalizer: constant facts and per-line case analysis -/

theorem heading_consts_facts :
    ∀ p ∈ headingPairs,
      jsTrim p.2 = p.2 ∧ isBoilerplate p.2 = false ∧ isPageXofY p.2 = false
        ∧ isStandaloneNumber p.2 = false ∧ normalizeBulletLine p.2 = p.2
        ∧ findHeading p.2 = some p.2 ∧ isBlankLine p.2 = false := by decide

theorem heading_consts_no_newline : ∀ p ∈ headingPairs, '\n' ∉ p.2 := by decide

theorem findHeading_some_mem {l e : Chars} (h : findHeading l = some e) :
    ∃ p ∈ headingPairs, p.2 = e := by
  rw [findHeading] at h
  rcases hf : headingPairs.find? (fun p => decide (lowerLine (jsTrim l) = p.1)) with _ | p
  · rw [hf] at h
    cases h
  · rw [hf] at h
    exact ⟨p, List.mem_of_find?_eq_some hf, Option.some.inj h⟩

theorem findHeading_blank {l : Chars} (h : isBlankLine l = true) : findHeading l = none := by
  have hjs : jsTrim l = [] := by
    rw [isBlankLine] at h
    exact List.isEmpty_iff.1 h
  rw [findHeading]
  simp only [hjs]
  decide

theorem findHeading_jsTrim (l : Chars) : findHeading (jsTrim l) = findHeading l := by
  rw [findHeading, findHeading, jsTrim_idem]

theorem isBlankLine_jsTrim (l : Chars) : isBlankLine (jsTrim l) = isBlankLine l := by
  rw [isBlankLine, isBlankLine, jsTrim_idem]

theorem isBoilerplate_jsTrim (l : Chars) : isBoilerplate (jsTrim l) = isBoilerplate l := by
  rw [isBoilerplate, isBoilerplate, jsTrim_idem]

theorem isPageXofY_jsTrim (l : Chars) : isPageXofY (jsTrim l) = isPageXofY l := by
  rw [isPageXofY, isPageXofY, jsTrim_idem]

theorem isStandaloneNumber_jsTrim (l : Chars) :
    isStandaloneNumber (jsTrim l) = isStandaloneNumber l := by
  rw [isStandaloneNumber, isStandaloneNumber, jsTrim_idem]

/-- Case analysis of the bullet-normalization of a single line. -/
theorem normalizeBulletLine_cases (x : Chars) :
    (jsTrim x = [] ∧ normalizeBulletLine x = x)
    ∨ (∃ c rest, jsTrim x = c :: rest ∧ (c ∈ bulletGlyphs → False) ∧ normalizeBulletLine x = x)
    ∨ normalizeBulletLine x = ['•']
    ∨ (∃ r, r ≠ [] ∧ jsTrim r = r ∧ (∀ c ∈ r, c ∈ x)
        ∧ normalizeBulletLine x = '•' :: ' ' :: r) := by
  rcases h : jsTrim x with _ | ⟨c, rest⟩
  · left
    exact ⟨rfl, by rw [normalizeBulletLine, h]⟩
  · by_cases hg : c ∈ bulletGlyphs
    · by_cases he : (jsTrim rest).isEmpty
      · right; right; left
        rw [normalizeBulletLine, h]
        simp only [if_pos hg, if_pos he]
      · right; right; right
        refine ⟨jsTrim rest, fun hh => he (by rw [hh]; rfl), jsTrim_idem rest,
          fun d hd => ?_, ?_⟩
        · have h1 : d ∈ rest := mem_jsTrim hd
          have h2 : d ∈ jsTrim x := by
            rw [h]
            exact List.mem_cons_of_mem c h1
          exact mem_jsTrim h2
        · rw [normalizeBulletLine, h]
          simp only [if_pos hg, if_neg he]
    · right; left
      refine ⟨c, rest, rfl, hg, ?_⟩
      rw [normalizeBulletLine, h]
      simp only [if_neg hg]

/-! ## Normalizer: membership provenance -/

theorem mem_emitBlanks {g : Chars} {n : ℕ} (h : g ∈ emitBlanks n) : g = [] := by
  rw [emitBlanks] at h
  split at h
  · exact List.mem_singleton.1 h
  · exact List.eq_of_mem_replicate h

theorem mem_collapseAux_snd : ∀ ls : List Chars, ∀ g ∈ (collapseAux ls).2, g ∈ ls ∨ g = []
  | [], g, hg => by simp [collapseAux] at hg
  | l :: rest, g, hg => by
    have ih := mem_collapseAux_snd rest
    rw [collapseAux] at hg
    by_cases he : l.isEmpty
    · simp only [if_pos he] at hg
      rcases ih g hg with h | h
      · exact Or.inl (List.mem_cons_of_mem l h)
      · exact Or.inr h
    · simp only [if_neg he] at hg
      rcases List.mem_cons.1 hg with rfl | hg2
      · exact Or.inl (List.mem_cons_self _ _)
      · rcases List.mem_append.1 hg2 with h | h
        · exact Or.inr (mem_emitBlanks h)
        · rcases ih g h with h2 | h2
          · exact Or.inl (List.mem_cons_of_mem l h2)
          · exact Or.inr h2

theorem mem_collapseBlankRuns {ls : List Chars} {g : Chars} (h : g ∈ collapseBlankRuns ls) :
    g ∈ ls ∨ g = [] := by
  rw [collapseBlankRuns] at h
  rcases List.mem_append.1 h with h | h
  · exact Or.inr (mem_emitBlanks h)
  · exact mem_collapseAux_snd ls g h

theorem dropTrailingBlanks_prefixOf : ∀ ls : List Chars, dropTrailingBlanks ls <+: ls
  | [] => List.nil_prefix
  | l :: rest => by
    rw [dropTrailingBlanks]
    rcases hD : dropTrailingBlanks rest with _ | ⟨r0, rs⟩
    · by_cases he : l.isEmpty
      · simp only [if_pos he]
        exact List.nil_prefix
      · simp only [if_neg he]
        exact ⟨rest, rfl⟩
    · have ih := dropTrailingBlanks_prefixOf rest
      rw [hD] at ih
      rcases ih with ⟨t, ht⟩
      exact ⟨t, by rw [List.cons_append, ht]⟩

theorem mem_dropTrailingBlanks {ls : List Chars} {g : Chars} (h : g ∈ dropTrailingBlanks ls) :
    g ∈ ls :=
  (dropTrailingBlanks_prefixOf ls).sublist.subset h

theorem mem_collapseWhitespace {ls : List Chars} {g : Chars} (h : g ∈ collapseWhitespace ls) :
    g = [] ∨ ∃ y ∈ ls, g = jsTrim y := by
  rw [collapseWhitespace] at h
  have h1 := mem_dropTrailingBlanks h
  have h2 := (List.dropWhile_sublist (l := collapseBlankRuns (ls.map jsTrim))
    (fun x : Chars => x.isEmpty)).subset h1
  rcases mem_collapseBlankRuns h2 with h3 | h3
  · rcases List.mem_map.1 h3 with ⟨y, hy, rfl⟩
    exact Or.inr ⟨y, hy, rfl⟩
  · exact Or.inl h3

theorem emphasizeHeadingsAux_nil (b : Bool) : emphasizeHeadingsAux b [] = [] := rfl

theorem emphasizeHeadingsAux_cons (b : Bool) (l : Chars) (rest : List Chars) :
    emphasizeHeadingsAux b (l :: rest) =
      match findHeading l with
      | some e =>
        (if b then [] else [[]]) ++
          e :: (match rest with
            | [] => []
            | r :: _ =>
              if isBlankLine r then emphasizeHeadingsAux false rest
              else [] :: emphasizeHeadingsAux true rest)
      | none => l :: emphasizeHeadingsAux (isBlankLine l) rest := rfl

theorem mem_emphasizeHeadingsAux :
    ∀ (b : Bool) (ls : List Chars), ∀ g ∈ emphasizeHeadingsAux b ls,
      g = [] ∨ g ∈ ls ∨ ∃ p ∈ headingPairs, g = p.2
  | _, [], g, hg => by simp [emphasizeHeadingsAux_nil] at hg
  | b, l :: rest, g, hg => by
    rw [emphasizeHeadingsAux_cons] at hg
    rcases hf : findHeading l with _ | e
    · simp only [hf] at hg
      rcases List.mem_cons.1 hg with rfl | hg2
      · exact Or.inr (Or.inl (List.mem_cons_self _ _))
      · rcases mem_emphasizeHeadingsAux _ rest g hg2 with h | h | h
        · exact Or.inl h
        · exact Or.inr (Or.inl (List.mem_cons_of_mem l h))
        · exact Or.inr (Or.inr h)
    · simp only [hf] at hg
      have hge : g = e → g = [] ∨ g ∈ l :: rest ∨ ∃ p ∈ headingPairs, g = p.2 := by
        rintro rfl
        rcases findHeading_some_mem hf with ⟨p, hp, hpe⟩
        exact Or.inr (Or.inr ⟨p, hp, hpe.symm⟩)
      rcases List.mem_append.1 hg with hpre | hrest
      · left
        split at hpre <;> simp_all
      · rcases List.mem_cons.1 hrest with rfl | hg2
        · exact hge rfl
        · rcases rest with _ | ⟨r, rest2⟩
          · simp at hg2
          · have hg3 : g ∈ (if isBlankLine r = true then
                emphasizeHeadingsAux false (r :: rest2)
                else [] :: emphasizeHeadingsAux true (r :: rest2)) := hg2
            by_cases hb : isBlankLine r
            · rw [if_pos hb] at hg3
              rcases mem_emphasizeHeadingsAux _ (r :: rest2) g hg3 with h | h | h
              · exact Or.inl h
              · exact Or.inr (Or.inl (List.mem_cons_of_mem l h))
              · exact Or.inr (Or.inr h)
            · rw [if_neg hb] at hg3
              rcases List.mem_cons.1 hg3 with rfl | hg4
              · exact Or.inl rfl
              · rcases mem_emphasizeHeadingsAux _ (r :: rest2) g hg4 with h | h | h
                · exact Or.inl h
                · exact Or.inr (Or.inl (List.mem_cons_of_mem l h))
                · exact Or.inr (Or.inr h)

/-- Provenance of every line of the pipeline output. -/
theorem pipeline_provenance {ls : List Chars} {g : Chars} (hg : g ∈ pipelineLines ls) :
    g = []
    ∨ (∃ p ∈ headingPairs, g = p.2)
    ∨ g = ['•']
    ∨ (∃ r, r ≠ [] ∧ jsTrim r = r ∧ g = '•' :: ' ' :: r
        ∧ ∃ x ∈ ls, ∀ c ∈ r, c ∈ x)
    ∨ (∃ x ∈ ls, isBoilerplate x = false ∧ isPageXofY x = false
        ∧ isStandaloneNumber x = false ∧ normalizeBulletLine x = x ∧ g = jsTrim x) := by
  rw [pipelineLines] at hg
  rcases mem_collapseWhitespace hg with h | ⟨y, hy, rfl⟩
  · exact Or.inl h
  rcases mem_emphasizeHeadingsAux _ _ y hy with h | h | ⟨p, hp, rfl⟩
  · subst h
    exact Or.inl rfl
  · rcases List.mem_map.1 h with ⟨x, hx, rfl⟩
    have hx2 := List.mem_filter.1 hx
    have hx3 := List.mem_filter.1 hx2.1
    have hboil : isBoilerplate x = false := by
      have := hx3.2
      simp only [Bool.not_eq_true'] at this
      exact this
    have hpage : isPageXofY x = false ∧ isStandaloneNumber x = false := by
      have := hx2.2
      simp only [Bool.not_eq_true', Bool.or_eq_false_iff] at this
      exact this
    rcases normalizeBulletLine_cases x with ⟨ht, hn⟩ | ⟨c, rest, ht, hc, hn⟩
      | hn | ⟨r, hrne, hrt, hrc, hn⟩
    · rw [hn]
      exact Or.inr (Or.inr (Or.inr (Or.inr
        ⟨x, hx3.1, hboil, hpage.1, hpage.2, hn, rfl⟩)))
    · rw [hn]
      exact Or.inr (Or.inr (Or.inr (Or.inr
        ⟨x, hx3.1, hboil, hpage.1, hpage.2, hn, rfl⟩)))
    · rw [hn]
      right; right; left
      decide
    · rw [hn, jsTrim_bullet hrne hrt]
      exact Or.inr (Or.inr (Or.inr (Or.inl ⟨r, hrne, hrt, rfl, x, hx3.1, hrc⟩)))
  · rw [(heading_consts_facts p hp).1]
    exact Or.inr (Or.inl ⟨p, hp, rfl⟩)


/-! ## Normalizer: facts about canonical bullet lines -/

theorem lowerLine_bullet (r : Chars) :
    lowerLine ('•' :: ' ' :: r) = '•' :: ' ' :: lowerLine r := by
  rw [lowerLine, List.map_cons, List.map_cons,
    show Char.toLower '•' = '•' from by decide,
    show Char.toLower ' ' = ' ' from by decide]
  rfl

theorem isBoilerplate_bullet {r : Chars} (hne : r ≠ []) (htr : jsTrim r = r) :
    isBoilerplate ('•' :: ' ' :: r) = false := by
  rw [isBoilerplate, jsTrim_bullet hne htr, lowerLine_bullet]
  refine decide_eq_false (fun hw => ?_)
  have hv : ∀ v ∈ boilerplateVocab, v.head? ≠ some '•' := by decide
  exact hv _ hw rfl

theorem splitRunsFold_bullet (t : Chars) :
    splitRunsFold (fun c => !c.isWhitespace) ('•' :: ' ' :: t)
      = ['•'] :: splitRunsFold (fun c => !c.isWhitespace) t := rfl

theorem wordsOf_bullet (t : Chars) : wordsOf ('•' :: ' ' :: t) = ['•'] :: wordsOf t := by
  rw [wordsOf, wordsOf, splitRuns_eq_fold, splitRuns_eq_fold, splitRunsFold_bullet,
    List.filter_cons_of_pos (by decide)]

theorem isPageXofY_bullet {r : Chars} (hne : r ≠ []) (htr : jsTrim r = r) :
    isPageXofY ('•' :: ' ' :: r) = false := by
  rw [isPageXofY, jsTrim_bullet hne htr, lowerLine_bullet, wordsOf_bullet]
  generalize wordsOf (lowerLine r) = W
  rcases W with _ | ⟨a, W⟩
  · rfl
  rcases W with _ | ⟨b, W⟩
  · rfl
  rcases W with _ | ⟨c0, W⟩
  · rfl
  rcases W with _ | ⟨d, W⟩
  · simp only [show (decide ((['•'] : Chars) = pageWord)) = false from by decide,
      Bool.false_and]
  · rfl

theorem isStandaloneNumber_bullet {r : Chars} (hne : r ≠ []) (htr : jsTrim r = r) :
    isStandaloneNumber ('•' :: ' ' :: r) = false := by
  rw [isStandaloneNumber, jsTrim_bullet hne htr, isNumericWord]
  simp [show Char.isDigit '•' = false from by decide]

theorem normalizeBulletLine_bullet {r : Chars} (hne : r ≠ []) (htr : jsTrim r = r) :
    normalizeBulletLine ('•' :: ' ' :: r) = '•' :: ' ' :: r := by
  have h1 : jsTrim (' ' :: r) = r := by
    rw [jsTrim_cons_ws (by decide), htr]
  rw [normalizeBulletLine, jsTrim_bullet hne htr]
  show (if '•' ∈ bulletGlyphs then
      if (jsTrim (' ' :: r)).isEmpty then ['•'] else '•' :: ' ' :: jsTrim (' ' :: r)
    else ('•' :: ' ' :: r)) = '•' :: ' ' :: r
  rw [if_pos (by decide), h1, if_neg (fun hh => hne (List.isEmpty_iff.1 hh))]

/-- A line fixed by bullet normalization stays fixed after trimming. -/
theorem normalizeBulletLine_fix_trim {x : Chars} (hfix : normalizeBulletLine x = x) :
    normalizeBulletLine (jsTrim x) = jsTrim x := by
  rcases normalizeBulletLine_cases x with ⟨ht, -⟩ | ⟨c, rest, ht, hc, -⟩
    | hn | ⟨r, hrne, hrt, -, hn⟩
  · rw [ht]
    rfl
  · rw [normalizeBulletLine, jsTrim_idem, ht]
    show (if c ∈ bulletGlyphs then
        if (jsTrim rest).isEmpty then ['•'] else '•' :: ' ' :: jsTrim rest
      else c :: rest) = c :: rest
    rw [if_neg hc]
  · rw [hfix] at hn
    rw [hn]
    decide
  · rw [hfix] at hn
    rw [hn, jsTrim_bullet hrne hrt]
    exact normalizeBulletLine_bullet hrne hrt

/-! ## Normalizer: invariants of the pipeline output -/

theorem pipeline_lines_trimmed {ls : List Chars} :
    ∀ g ∈ pipelineLines ls, jsTrim g = g := by
  intro g hg
  rcases pipeline_provenance hg with rfl | ⟨p, hp, rfl⟩ | rfl
    | ⟨r, hne, htr, rfl, -⟩ | ⟨x, -, -, -, -, -, rfl⟩
  · rfl
  · exact (heading_consts_facts p hp).1
  · decide
  · exact jsTrim_bullet hne htr
  · exact jsTrim_idem x

theorem pipeline_not_boilerplate {ls : List Chars} :
    ∀ g ∈ pipelineLines ls, isBoilerplate g = false := by
  intro g hg
  rcases pipeline_provenance hg with rfl | ⟨p, hp, rfl⟩ | rfl
    | ⟨r, hne, htr, rfl, -⟩ | ⟨x, -, hb, -, -, -, rfl⟩
  · decide
  · exact (heading_consts_facts p hp).2.1
  · decide
  · exact isBoilerplate_bullet hne htr
  · rw [isBoilerplate_jsTrim]
    exact hb

theorem pipeline_not_page {ls : List Chars} :
    ∀ g ∈ pipelineLines ls, isPageXofY g = false ∧ isStandaloneNumber g = false := by
  intro g hg
  rcases pipeline_provenance hg with rfl | ⟨p, hp, rfl⟩ | rfl
    | ⟨r, hne, htr, rfl, -⟩ | ⟨x, -, -, hp1, hp2, -, rfl⟩
  · constructor <;> decide
  · exact ⟨(heading_consts_facts p hp).2.2.1, (heading_consts_facts p hp).2.2.2.1⟩
  · constructor <;> decide
  · exact ⟨isPageXofY_bullet hne htr, isStandaloneNumber_bullet hne htr⟩
  · rw [isPageXofY_jsTrim, isStandaloneNumber_jsTrim]
    exact ⟨hp1, hp2⟩

theorem pipeline_bullets_fixed {ls : List Chars} :
    ∀ g ∈ pipelineLines ls, normalizeBulletLine g = g := by
  intro g hg
  rcases pipeline_provenance hg with rfl | ⟨p, hp, rfl⟩ | rfl
    | ⟨r, hne, htr, rfl, -⟩ | ⟨x, -, -, -, -, hnb, rfl⟩
  · rfl
  · exact (heading_consts_facts p hp).2.2.2.2.1
  · decide
  · exact normalizeBulletLine_bullet hne htr
  · exact normalizeBulletLine_fix_trim hnb

theorem pipeline_no_newline {ls : List Chars} (hls : ∀ x ∈ ls, '\n' ∉ x) :
    ∀ g ∈ pipelineLines ls, '\n' ∉ g := by
  intro g hg
  rcases pipeline_provenance hg with rfl | ⟨p, hp, rfl⟩ | rfl
    | ⟨r, hne, htr, rfl, x, hxm, hcr⟩ | ⟨x, hxm, -, -, -, -, rfl⟩
  · simp
  · exact heading_consts_no_newline p hp
  · decide
  · intro hmm
    rcases List.mem_cons.1 hmm with h1 | h1
    · exact absurd h1 (by decide)
    rcases List.mem_cons.1 h1 with h2 | h2
    · exact absurd h2 (by decide)
    · exact hls x hxm (hcr _ h2)
  · intro hmm
    exact hls x hxm (mem_jsTrim hmm)

/-! ## Normalizer: fixpoint of the filter and map phases -/

theorem stripBoilerplate_fix {Z : List Chars}
    (h : ∀ g ∈ Z, isBoilerplate g = false) : stripBoilerplate Z = Z := by
  rw [stripBoilerplate]
  refine List.filter_eq_self.2 (fun a ha => ?_)
  rw [h a ha]
  rfl

theorem removePageArtifacts_fix {Z : List Chars}
    (h : ∀ g ∈ Z, isPageXofY g = false ∧ isStandaloneNumber g = false) :
    removePageArtifacts Z = Z := by
  rw [removePageArtifacts]
  refine List.filter_eq_self.2 (fun a ha => ?_)
  rw [(h a ha).1, (h a ha).2]
  rfl

theorem normalizeBullets_fix {Z : List Chars}
    (h : ∀ g ∈ Z, normalizeBulletLine g = g) : normalizeBullets Z = Z :=
  map_fix h


/-! ## Normalizer: the heading/blank-separation invariant -/

/-- Structural invariant of step 4: every heading line is in canonical
emphasized form, is preceded by a blank line (or the document start,
recorded by the flag) and followed by a blank line (or the document
end). -/
inductive HeadingsOk : Bool → List Chars → Prop where
  | nil : ∀ b, HeadingsOk b []
  | nonheading : ∀ (b : Bool) (l : Chars) (rest : List Chars),
      findHeading l = none → HeadingsOk (isBlankLine l) rest → HeadingsOk b (l :: rest)
  | headingLast : ∀ l : Chars, findHeading l = some l → HeadingsOk true [l]
  | headingCons : ∀ (l r : Chars) (rest : List Chars),
      findHeading l = some l → isBlankLine r = true →
      HeadingsOk false (r :: rest) → HeadingsOk true (l :: r :: rest)

theorem findHeading_nil : findHeading [] = none := by decide

theorem isBlankLine_nil : isBlankLine [] = true := by decide

theorem emphasizeHeadingsAux_fix :
    ∀ (b : Bool) (ls : List Chars), HeadingsOk b ls → emphasizeHeadingsAux b ls = ls
  | _, [], _ => rfl
  | b, l :: rest, h => by
    rw [emphasizeHeadingsAux_cons]
    cases h with
    | nonheading _ _ _ hf hok =>
      simp only [hf]
      rw [emphasizeHeadingsAux_fix _ rest hok]
    | headingLast _ hf =>
      simp only [hf]
      rfl
    | headingCons _ r rest2 hf hblank hok =>
      simp only [hf]
      show (if true = true then [] else [[]]) ++ l ::
          (if isBlankLine r = true then emphasizeHeadingsAux false (r :: rest2)
           else [] :: emphasizeHeadingsAux true (r :: rest2)) = l :: r :: rest2
      rw [if_pos rfl, if_pos hblank, emphasizeHeadingsAux_fix false _ hok]
      rfl

theorem emphasizeHeadingsAux_establishes :
    ∀ (n : ℕ) (ls : List Chars), ls.length ≤ n → ∀ b : Bool,
      HeadingsOk b (emphasizeHeadingsAux b ls) := by
  intro n
  induction n with
  | zero =>
    intro ls hls b
    rw [List.length_eq_zero.1 (Nat.le_zero.1 hls)]
    exact HeadingsOk.nil b
  | succ n ih =>
    intro ls hls b
    rcases ls with _ | ⟨l, rest⟩
    · exact HeadingsOk.nil b
    rw [emphasizeHeadingsAux_cons]
    rcases hf : findHeading l with _ | e
    · simp only [hf]
      exact HeadingsOk.nonheading b l _ hf
        (ih rest (by simpa using Nat.le_of_succ_le_succ hls) _)
    · rcases findHeading_some_mem hf with ⟨p, hp, rfl⟩
      have hfe : findHeading p.2 = some p.2 := (heading_consts_facts p hp).2.2.2.2.2.1
      have hrest : rest.length ≤ n := by simpa using Nat.le_of_succ_le_succ hls
      have hb_reduce : ∀ X : List Chars, HeadingsOk true (p.2 :: X) →
          HeadingsOk b ((if b = true then [] else [[]]) ++ p.2 :: X) := by
        intro X hX
        by_cases hbb : b = true
        · subst hbb
          rw [if_pos rfl]
          simpa using hX
        · rw [if_neg hbb]
          refine HeadingsOk.nonheading b [] _ findHeading_nil ?_
          rw [isBlankLine_nil]
          exact hX
      rcases rest with _ | ⟨r, rest2⟩
      · simp only [hf]
        exact hb_reduce [] (HeadingsOk.headingLast p.2 hfe)
      · simp only [hf]
        show HeadingsOk b ((if b = true then [] else [[]]) ++ p.2 ::
          (if isBlankLine r = true then emphasizeHeadingsAux false (r :: rest2)
           else [] :: emphasizeHeadingsAux true (r :: rest2)))
        have hrest2 : rest2.length ≤ n := by
          simp only [List.length_cons] at hrest
          omega
        by_cases hb2 : isBlankLine r
        · rw [if_pos hb2]
          have hr0 : findHeading r = none := findHeading_blank hb2
          have hTAIL : emphasizeHeadingsAux false (r :: rest2)
              = r :: emphasizeHeadingsAux true rest2 := by
            rw [emphasizeHeadingsAux_cons]
            simp only [hr0, hb2]
          rw [hTAIL]
          refine hb_reduce _ (HeadingsOk.headingCons p.2 r _ hfe hb2 ?_)
          refine HeadingsOk.nonheading false r _ hr0 ?_
          rw [hb2]
          exact ih rest2 hrest2 true
        · rw [if_neg hb2]
          refine hb_reduce _ (HeadingsOk.headingCons p.2 [] _ hfe isBlankLine_nil ?_)
          refine HeadingsOk.nonheading false [] _ findHeading_nil ?_
          rw [isBlankLine_nil]
          exact ih (r :: rest2) hrest true

theorem emphasizeHeadings_establishes (ls : List Chars) :
    HeadingsOk true (emphasizeHeadings ls) :=
  emphasizeHeadingsAux_establishes ls.length ls le_rfl true


/-! ## Normalizer: preservation of the heading invariant by step 5 -/

theorem HeadingsOk_map_jsTrim :
    ∀ (b : Bool) (ls : List Chars), HeadingsOk b ls → HeadingsOk b (ls.map jsTrim)
  | b, [], _ => HeadingsOk.nil b
  | b, l :: rest, h => by
    rw [List.map_cons]
    cases h with
    | nonheading _ _ _ hf hok =>
      refine HeadingsOk.nonheading b (jsTrim l) _ ?_ ?_
      · rw [findHeading_jsTrim]
        exact hf
      · rw [isBlankLine_jsTrim]
        exact HeadingsOk_map_jsTrim _ rest hok
    | headingLast _ hf =>
      rcases findHeading_some_mem hf with ⟨p, hp, hpe⟩
      have ht : jsTrim l = l := by
        rw [← hpe]
        exact (heading_consts_facts p hp).1
      rw [ht]
      exact HeadingsOk.headingLast l hf
    | headingCons _ r rest2 hf hblank hok =>
      rcases findHeading_some_mem hf with ⟨p, hp, hpe⟩
      have ht : jsTrim l = l := by
        rw [← hpe]
        exact (heading_consts_facts p hp).1
      rw [ht, List.map_cons]
      refine HeadingsOk.headingCons l (jsTrim r) _ hf ?_ ?_
      · rw [isBlankLine_jsTrim]
        exact hblank
      · have := HeadingsOk_map_jsTrim false (r :: rest2) hok
        rw [List.map_cons] at this
        exact this

theorem HeadingsOk_replicate_append :
    ∀ (k : ℕ) (t : List Chars) (b : Bool), (0 < k → HeadingsOk true t) →
      (k = 0 → HeadingsOk b t) → HeadingsOk b (List.replicate k [] ++ t)
  | 0, t, b, _, h0 => by simpa using h0 rfl
  | k + 1, t, b, h1, _ => by
    rw [List.replicate_succ, List.cons_append]
    refine HeadingsOk.nonheading b [] _ findHeading_nil ?_
    rw [isBlankLine_nil]
    exact HeadingsOk_replicate_append k t true (fun _ => h1 (Nat.succ_pos k))
      (fun _ => h1 (Nat.succ_pos k))

theorem HeadingsOk_emitBlanks_append (n : ℕ) (b : Bool) (t : List Chars)
    (h1 : 0 < n → HeadingsOk true t) (h0 : n = 0 → HeadingsOk b t) :
    HeadingsOk b (emitBlanks n ++ t) := by
  rw [emitBlanks]
  by_cases h3 : 3 ≤ n
  · rw [if_pos h3]
    have : HeadingsOk b (List.replicate 1 [] ++ t) :=
      HeadingsOk_replicate_append 1 t b (fun _ => h1 (by omega))
        (fun hh => absurd hh (by omega))
    exact this
  · rw [if_neg h3]
    exact HeadingsOk_replicate_append n t b h1 h0

theorem emitBlanks_pos {n : ℕ} (h : 0 < n) : ∃ B, emitBlanks n = [] :: B := by
  rw [emitBlanks]
  split
  · exact ⟨[], rfl⟩
  · cases n with
    | zero => exact absurd h (by omega)
    | succ k => exact ⟨List.replicate k [], by rw [List.replicate_succ]⟩

theorem collapseAux_cons (l : Chars) (rest : List Chars) :
    collapseAux (l :: rest) =
      if l.isEmpty then ((collapseAux rest).1 + 1, (collapseAux rest).2)
      else (0, l :: (emitBlanks (collapseAux rest).1 ++ (collapseAux rest).2)) := rfl

theorem HeadingsOk_collapseAux :
    ∀ (ls : List Chars) (b : Bool), (∀ g ∈ ls, jsTrim g = g) → HeadingsOk b ls →
      HeadingsOk (if 0 < (collapseAux ls).1 then true else b) (collapseAux ls).2
  | [], b, _, _ => by
    show HeadingsOk (if 0 < (0 : ℕ) then true else b) ([] : List Chars)
    exact HeadingsOk.nil _
  | l :: rest, b, htr, h => by
    have htrrest : ∀ g ∈ rest, jsTrim g = g := fun g hg => htr g (List.mem_cons_of_mem l hg)
    by_cases he : l.isEmpty
    · rw [collapseAux_cons, if_pos he]
      have hl : l = [] := List.isEmpty_iff.1 he
      subst hl
      have hok : HeadingsOk true rest := by
        cases h with
        | nonheading _ _ _ hf hok2 =>
          rw [isBlankLine_nil] at hok2
          exact hok2
        | headingLast _ hf =>
          rw [findHeading_nil] at hf
          cases hf
        | headingCons _ r rest2 hf hblank hok2 =>
          rw [findHeading_nil] at hf
          cases hf
      have hrec := HeadingsOk_collapseAux rest true htrrest hok
      have hflag : (if 0 < (collapseAux rest).1 then true else true) = true := by
        split <;> rfl
      rw [hflag] at hrec
      rw [if_pos (Nat.succ_pos _)]
      exact hrec
    · rw [collapseAux_cons, if_neg he]
      show HeadingsOk (if 0 < (0 : ℕ) then true else b)
        (l :: (emitBlanks (collapseAux rest).1 ++ (collapseAux rest).2))
      rw [if_neg (by omega)]
      have hbl : isBlankLine l = false := by
        rw [isBlankLine, htr l (List.mem_cons_self l rest)]
        exact Bool.eq_false_iff.2 he
      cases h with
      | nonheading _ _ _ hf hok =>
        refine HeadingsOk.nonheading b l _ hf ?_
        rw [hbl]
        rw [hbl] at hok
        have hrec := HeadingsOk_collapseAux rest false htrrest hok
        refine HeadingsOk_emitBlanks_append _ false _ (fun hpos => ?_) (fun h0 => ?_)
        · rw [if_pos hpos] at hrec
          exact hrec
        · rw [h0, if_neg (by omega)] at hrec
          exact hrec
      | headingLast _ hf =>
        show HeadingsOk true (l ::
          (emitBlanks (collapseAux ([] : List Chars)).1 ++ (collapseAux ([] : List Chars)).2))
        exact HeadingsOk.headingLast l hf
      | headingCons _ r rest2 hf hblank hok =>
        have hr : r = [] := by
          have h2 := htrrest r (List.mem_cons_self r rest2)
          rw [isBlankLine, h2] at hblank
          exact List.isEmpty_iff.1 hblank
        subst hr
        have haux1 : (collapseAux ([] :: rest2)).1 = (collapseAux rest2).1 + 1 := by
          rw [collapseAux_cons]
          simp
        have hrec := HeadingsOk_collapseAux ([] :: rest2) false htrrest hok
        rw [haux1, if_pos (Nat.succ_pos _)] at hrec
        rcases emitBlanks_pos (haux1 ▸ Nat.succ_pos (collapseAux rest2).1 :
          0 < (collapseAux ([] :: rest2)).1) with ⟨B, hB⟩
        rw [hB, List.cons_append]
        refine HeadingsOk.headingCons l [] _ hf isBlankLine_nil ?_
        refine HeadingsOk.nonheading false [] _ findHeading_nil ?_
        rw [isBlankLine_nil]
        have hBt : [] :: (B ++ (collapseAux ([] :: rest2)).2)
            = emitBlanks (collapseAux ([] :: rest2)).1 ++ (collapseAux ([] :: rest2)).2 := by
          rw [hB, List.cons_append]
        have : HeadingsOk true
            (emitBlanks (collapseAux ([] :: rest2)).1 ++ (collapseAux ([] :: rest2)).2) := by
          refine HeadingsOk_emitBlanks_append _ true _ (fun _ => hrec) (fun _ => hrec)
        rw [← hBt] at this
        generalize B ++ (collapseAux ([] :: rest2)).2 = X at this ⊢
        cases this with
        | nonheading _ _ _ hf2 hok2 =>
          rw [isBlankLine_nil] at hok2
          exact hok2
        | headingLast _ hf2 =>
          rw [findHeading_nil] at hf2
          cases hf2
        | headingCons _ r2 rest3 hf2 hblank2 hok2 =>
          rw [findHeading_nil] at hf2
          cases hf2

theorem HeadingsOk_collapseBlankRuns {ls : List Chars} {b : Bool}
    (htr : ∀ g ∈ ls, jsTrim g = g) (h : HeadingsOk b ls) :
    HeadingsOk b (collapseBlankRuns ls) := by
  rw [collapseBlankRuns]
  have hrec := HeadingsOk_collapseAux ls b htr h
  refine HeadingsOk_emitBlanks_append _ b _ (fun hpos => ?_) (fun h0 => ?_)
  · rw [if_pos hpos] at hrec
    exact hrec
  · rw [h0, if_neg (by omega)] at hrec
    exact hrec

theorem HeadingsOk_dropWhile_isEmpty :
    ∀ ls : List Chars, HeadingsOk true ls →
      HeadingsOk true (ls.dropWhile (fun l => l.isEmpty))
  | [], h => h
  | l :: rest, h => by
    by_cases he : l.isEmpty
    · rw [List.dropWhile_cons_of_pos he]
      have hl : l = [] := List.isEmpty_iff.1 he
      subst hl
      have hok : HeadingsOk true rest := by
        cases h with
        | nonheading _ _ _ hf hok2 =>
          rw [isBlankLine_nil] at hok2
          exact hok2
        | headingLast _ hf =>
          rw [findHeading_nil] at hf
          cases hf
        | headingCons _ r rest2 hf hblank hok2 =>
          rw [findHeading_nil] at hf
          cases hf
      exact HeadingsOk_dropWhile_isEmpty rest hok
    · rw [List.dropWhile_cons_of_neg he]
      exact h

theorem HeadingsOk_dropTrailingBlanks :
    ∀ (b : Bool) (ls : List Chars), HeadingsOk b ls → HeadingsOk b (dropTrailingBlanks ls)
  | _, [], h => h
  | b, l :: rest, h => by
    rw [dropTrailingBlanks]
    rcases hD : dropTrailingBlanks rest with _ | ⟨r0, rs⟩
    · by_cases he : l.isEmpty
      · rw [if_pos he]
        exact HeadingsOk.nil b
      · rw [if_neg he]
        cases h with
        | nonheading _ _ _ hf hok =>
          exact HeadingsOk.nonheading b l _ hf (HeadingsOk.nil _)
        | headingLast _ hf =>
          exact HeadingsOk.headingLast l hf
        | headingCons _ r rest2 hf hblank hok =>
          exact HeadingsOk.headingLast l hf
    · cases h with
      | nonheading _ _ _ hf hok =>
        have hrec := HeadingsOk_dropTrailingBlanks _ rest hok
        rw [hD] at hrec
        exact HeadingsOk.nonheading b l _ hf hrec
      | headingLast _ hf =>
        rw [show dropTrailingBlanks ([] : List Chars) = [] from rfl] at hD
        cases hD
      | headingCons _ r rest2 hf hblank hok =>
        have hrec := HeadingsOk_dropTrailingBlanks false (r :: rest2) hok
        rw [hD] at hrec
        have hr0 : r0 = r := by
          rcases dropTrailingBlanks_prefixOf (r :: rest2) with ⟨t, ht⟩
          rw [hD, List.cons_append] at ht
          exact (List.cons.injEq _ _ _ _ ▸ ht).1
        subst hr0
        exact HeadingsOk.headingCons l r0 rs hf hblank hrec

theorem HeadingsOk_pipeline (ls : List Chars) : HeadingsOk true (pipelineLines ls) := by
  rw [pipelineLines, collapseWhitespace]
  refine HeadingsOk_dropTrailingBlanks true _ (HeadingsOk_dropWhile_isEmpty _ ?_)
  refine HeadingsOk_collapseBlankRuns (fun g hg => ?_) ?_
  · rcases List.mem_map.1 hg with ⟨y, -, rfl⟩
    exact jsTrim_idem y
  · exact HeadingsOk_map_jsTrim true _ (emphasizeHeadings_establishes _)

theorem emphasizeHeadings_fix_pipeline (ls : List Chars) :
    emphasizeHeadings (pipelineLines ls) = pipelineLines ls :=
  emphasizeHeadingsAux_fix true _ (HeadingsOk_pipeline ls)


/-! ## Normalizer: blank-run structure and the whitespace-phase fixpoint -/

/-- No three consecutive blank (empty, post-trim) lines. -/
def NoTripleBlank : List Chars → Prop
  | [] => True
  | [_] => True
  | [_, _] => True
  | a :: b :: c :: rest => ¬(a = [] ∧ b = [] ∧ c = []) ∧ NoTripleBlank (b :: c :: rest)

theorem NoTripleBlank_tail {a : Chars} {rest : List Chars}
    (h : NoTripleBlank (a :: rest)) : NoTripleBlank rest := by
  rcases rest with _ | ⟨b, _ | ⟨c, rest2⟩⟩
  · trivial
  · trivial
  · exact h.2

theorem NoTripleBlank_cons_headne (a : Chars) {t : List Chars}
    (hh : t = [] ∨ ∃ h u, t = h :: u ∧ h ≠ []) (ht : NoTripleBlank t) :
    NoTripleBlank (a :: t) := by
  rcases hh with rfl | ⟨h, u, rfl, hne⟩
  · trivial
  · rcases u with _ | ⟨u0, u2⟩
    · trivial
    · exact ⟨fun hc => hne hc.2.1, ht⟩

theorem NoTripleBlank_cons_of_ne {a : Chars} (ha : a ≠ []) {t : List Chars}
    (ht : NoTripleBlank t) : NoTripleBlank (a :: t) := by
  rcases t with _ | ⟨b, _ | ⟨c, t2⟩⟩
  · trivial
  · trivial
  · exact ⟨fun hc => ha hc.1, ht⟩

theorem emitBlanks_eq_replicate (n : ℕ) :
    ∃ k, k ≤ 2 ∧ emitBlanks n = List.replicate k [] := by
  rw [emitBlanks]
  by_cases h : 3 ≤ n
  · rw [if_pos h]
    exact ⟨1, by omega, rfl⟩
  · rw [if_neg h]
    exact ⟨n, by omega, rfl⟩

theorem emitBlanks_of_le {k : ℕ} (h : k ≤ 2) : emitBlanks k = List.replicate k [] := by
  rw [emitBlanks, if_neg (by omega)]

theorem NoTripleBlank_replicate_append {k : ℕ} (hk : k ≤ 2) {t : List Chars}
    (hh : t = [] ∨ ∃ h u, t = h :: u ∧ h ≠ []) (ht : NoTripleBlank t) :
    NoTripleBlank (List.replicate k [] ++ t) := by
  rcases Nat.lt_or_ge k 1 with h1 | h1
  · have : k = 0 := by omega
    subst this
    simpa using ht
  rcases Nat.lt_or_ge k 2 with h2 | h2
  · have : k = 1 := by omega
    subst this
    simpa using NoTripleBlank_cons_headne [] hh ht
  have : k = 2 := by omega
  subst this
  show NoTripleBlank ([] :: [] :: t)
  rcases hh with rfl | ⟨h, u, rfl, hne⟩
  · trivial
  · exact ⟨fun hc => hne hc.2.2, NoTripleBlank_cons_headne [] (Or.inr ⟨h, u, rfl, hne⟩) ht⟩

theorem collapseAux_snd_shape : ∀ ls : List Chars,
    ((collapseAux ls).2 = [] ∨ ∃ h u, (collapseAux ls).2 = h :: u ∧ h ≠ [])
      ∧ NoTripleBlank (collapseAux ls).2
  | [] => ⟨Or.inl rfl, trivial⟩
  | l :: rest => by
    have ih := collapseAux_snd_shape rest
    rw [collapseAux_cons]
    by_cases he : l.isEmpty
    · rw [if_pos he]
      exact ih
    · rw [if_neg he]
      have hne : l ≠ [] := fun hh => he (by rw [hh]; rfl)
      refine ⟨Or.inr ⟨l, _, rfl, hne⟩, ?_⟩
      rcases emitBlanks_eq_replicate (collapseAux rest).1 with ⟨k, hk, hek⟩
      rw [hek]
      exact NoTripleBlank_cons_of_ne hne
        (NoTripleBlank_replicate_append hk ih.1 ih.2)

theorem collapseAux_fix : ∀ ls : List Chars, NoTripleBlank ls →
    (collapseAux ls).1 ≤ 2
      ∧ emitBlanks (collapseAux ls).1 ++ (collapseAux ls).2 = ls
  | [], _ => ⟨by show (0 : ℕ) ≤ 2; omega, rfl⟩
  | l :: rest, h => by
    have ih := collapseAux_fix rest (NoTripleBlank_tail h)
    rw [collapseAux_cons]
    by_cases he : l.isEmpty
    · rw [if_pos he]
      have hl : l = [] := List.isEmpty_iff.1 he
      subst hl
      have h1 : (collapseAux rest).1 ≤ 1 := by
        rcases Nat.lt_or_ge (collapseAux rest).1 2 with hlt | hge
        · omega
        · exfalso
          have h2 : (collapseAux rest).1 = 2 := by omega
          have h3 := ih.2
          rw [h2, emitBlanks_of_le (by omega)] at h3
          rw [← h3] at h
          exact h.1 ⟨rfl, rfl, rfl⟩
      refine ⟨by omega, ?_⟩
      rw [emitBlanks_of_le (by omega), List.replicate_succ, List.cons_append,
        ← emitBlanks_of_le (by omega : (collapseAux rest).1 ≤ 2), ih.2]
    · rw [if_neg he]
      refine ⟨by omega, ?_⟩
      show emitBlanks 0 ++ l :: (emitBlanks (collapseAux rest).1 ++ (collapseAux rest).2)
        = l :: rest
      rw [ih.2]
      rfl

theorem collapseBlankRuns_fix {ls : List Chars} (h : NoTripleBlank ls) :
    collapseBlankRuns ls = ls :=
  (collapseAux_fix ls h).2

theorem NoTripleBlank_collapseBlankRuns (ls : List Chars) :
    NoTripleBlank (collapseBlankRuns ls) := by
  rw [collapseBlankRuns]
  rcases emitBlanks_eq_replicate (collapseAux ls).1 with ⟨k, hk, hek⟩
  rw [hek]
  exact NoTripleBlank_replicate_append hk (collapseAux_snd_shape ls).1
    (collapseAux_snd_shape ls).2

theorem NoTripleBlank_dropWhile (p : Chars → Bool) :
    ∀ ls : List Chars, NoTripleBlank ls → NoTripleBlank (ls.dropWhile p)
  | [], h => h
  | l :: rest, h => by
    by_cases hp : p l
    · rw [List.dropWhile_cons_of_pos hp]
      exact NoTripleBlank_dropWhile p rest (NoTripleBlank_tail h)
    · rw [List.dropWhile_cons_of_neg hp]
      exact h

theorem NoTripleBlank_dropTrailingBlanks :
    ∀ ls : List Chars, NoTripleBlank ls → NoTripleBlank (dropTrailingBlanks ls)
  | [], h => h
  | l :: rest, h => by
    rw [dropTrailingBlanks]
    rcases hD : dropTrailingBlanks rest with _ | ⟨r0, rs⟩
    · by_cases he : l.isEmpty
      · rw [if_pos he]
        trivial
      · rw [if_neg he]
        trivial
    · have ihD := NoTripleBlank_dropTrailingBlanks rest (NoTripleBlank_tail h)
      rw [hD] at ihD
      rcases dropTrailingBlanks_prefixOf rest with ⟨t, ht⟩
      rw [hD, List.cons_append] at ht
      rcases rs with _ | ⟨r1, rs2⟩
      · trivial
      · refine ⟨?_, ihD⟩
        rw [← ht] at h
        exact h.1

theorem dropWhile_shape_gen {α : Type} (p : α → Bool) (l : List α) :
    List.dropWhile p l = [] ∨ ∃ c t, List.dropWhile p l = c :: t ∧ p c = false := by
  induction l with
  | nil => exact Or.inl rfl
  | cons c l ih =>
    by_cases h : p c
    · rw [List.dropWhile_cons_of_pos h]
      exact ih
    · rw [List.dropWhile_cons_of_neg h]
      exact Or.inr ⟨c, l, rfl, Bool.eq_false_iff.2 h⟩

theorem dropWhile_fix_of_head {α : Type} {p : α → Bool} {ls : List α}
    (h : ∀ c, ls.head? = some c → p c = false) : ls.dropWhile p = ls := by
  cases ls with
  | nil => rfl
  | cons c t =>
    rw [List.dropWhile_cons_of_neg]
    rw [h c rfl]
    simp

theorem dropTrailingBlanks_idem :
    ∀ ls : List Chars, dropTrailingBlanks (dropTrailingBlanks ls) = dropTrailingBlanks ls
  | [] => rfl
  | l :: rest => by
    rw [dropTrailingBlanks]
    rcases hD : dropTrailingBlanks rest with _ | ⟨r0, rs⟩
    · by_cases he : l.isEmpty
      · rw [if_pos he]
        rfl
      · rw [if_neg he]
        rw [dropTrailingBlanks, show dropTrailingBlanks ([] : List Chars) = [] from rfl,
          if_neg he]
    · have ih := dropTrailingBlanks_idem rest
      rw [hD] at ih
      rw [dropTrailingBlanks, ih]

theorem IsPrefix_head? {α : Type} {x y : List α} (h : x <+: y) (hne : x ≠ []) :
    x.head? = y.head? := by
  rcases h with ⟨t, rfl⟩
  cases x with
  | nil => exact absurd rfl hne
  | cons c u => rfl

theorem dropTrailingBlanks_head? (ls : List Chars) :
    dropTrailingBlanks ls = [] ∨ (dropTrailingBlanks ls).head? = ls.head? := by
  by_cases he : dropTrailingBlanks ls = []
  · exact Or.inl he
  · exact Or.inr (IsPrefix_head? (dropTrailingBlanks_prefixOf ls) he)

theorem collapseWhitespace_fix_pipeline (ls : List Chars) :
    collapseWhitespace (pipelineLines ls) = pipelineLines ls := by
  have htrim : (pipelineLines ls).map jsTrim = pipelineLines ls :=
    map_fix pipeline_lines_trimmed
  have hnt : NoTripleBlank (pipelineLines ls) := by
    rw [pipelineLines, collapseWhitespace]
    exact NoTripleBlank_dropTrailingBlanks _
      (NoTripleBlank_dropWhile _ _ (NoTripleBlank_collapseBlankRuns _))
  have hcol : collapseBlankRuns (pipelineLines ls) = pipelineLines ls :=
    collapseBlankRuns_fix hnt
  have hdw : (pipelineLines ls).dropWhile (fun l => l.isEmpty) = pipelineLines ls := by
    refine dropWhile_fix_of_head (fun c hc => ?_)
    rw [pipelineLines, collapseWhitespace] at hc
    rcases dropTrailingBlanks_head?
        ((collapseBlankRuns (((emphasizeHeadings (normalizeBullets (removePageArtifacts
          (stripBoilerplate ls))))).map jsTrim)).dropWhile (fun l => l.isEmpty)) with hnil | hh
    · rw [hnil] at hc
      cases hc
    · rw [hh] at hc
      rcases dropWhile_shape_gen (fun l : Chars => l.isEmpty)
          (collapseBlankRuns (((emphasizeHeadings (normalizeBullets (removePageArtifacts
            (stripBoilerplate ls))))).map jsTrim)) with hnil2 | ⟨c2, t2, heq, hfalse⟩
    -- either empty (contradiction with hc) or head has isEmpty false
      · rw [hnil2] at hc
        cases hc
      · rw [heq] at hc
        simp only [List.head?_cons] at hc
        rw [← Option.some.inj hc]
        exact hfalse
  have hdt : dropTrailingBlanks (pipelineLines ls) = pipelineLines ls := by
    rw [pipelineLines, collapseWhitespace]
    exact dropTrailingBlanks_idem _
  rw [collapseWhitespace, htrim, hcol, hdw, hdt]

/-- The full normalization pipeline is idempotent on line lists. -/
theorem pipelineLines_idem (ls : List Chars) :
    pipelineLines (pipelineLines ls) = pipelineLines ls := by
  show collapseWhitespace (emphasizeHeadings (normalizeBullets (removePageArtifacts
    (stripBoilerplate (pipelineLines ls))))) = pipelineLines ls
  rw [stripBoilerplate_fix pipeline_not_boilerplate,
    removePageArtifacts_fix pipeline_not_page,
    normalizeBullets_fix pipeline_bullets_fixed,
    emphasizeHeadings_fix_pipeline,
    collapseWhitespace_fix_pipeline]

/-! ## Claim C2: idempotence of normalization -/

/-- C2.  Applying the full normalization pipeline twice yields the same
string as applying it once: `normalize (normalize x) = normalize x` for
every extracted text `x`.  (The normalizer is modelled from the spec,
section 4.2, as its Python source is not part of the repository
snapshot.) -/
theorem normalize_idempotent (s : String) : normalize (normalize s) = normalize s := by
  rw [normalize, normalize]
  rw [show (String.mk (unlinesOf (pipelineLines (linesOf s.toList)))).toList
    = unlinesOf (pipelineLines (linesOf s.toList)) from rfl]
  by_cases hE : pipelineLines (linesOf s.toList) = []
  · rw [hE]
    rw [show (unlinesOf [] : Chars) = [] from rfl]
    rw [show linesOf ([] : Chars) = [[]] from rfl]
    rw [show pipelineLines [[]] = ([] : List Chars) from by decide]
    rfl
  · rw [linesOf_unlinesOf _ hE (pipeline_no_newline (mem_linesOf_no_newline s.toList)),
      pipelineLines_idem]

end ResumeAI
